import Mathlib

/-!
Verification of the citation-consistency engine of
`src/deep-research/scripts/format-report.py`.

The Python source is shallowly embedded over `List Char`.  Python `str`
values are modelled as `List Char`; CPython library routines used by the
script (`urllib.parse.urlparse`, `parse_qs`, `urlencode`, `urlunparse`,
`re` matching for the three fixed patterns, `dict` insertion-order
semantics, `str.strip`/`rstrip`, `sorted(..., key=int)`) are modelled
function-by-function following their documented CPython behaviour.
Fallible operations (CPython raises `ValueError "Invalid IPv6 URL"` in
`urlsplit` for a netloc with unbalanced square brackets) are modelled
with `Except`.

Modelling notes, recorded once here:
* the regex classes `\s` and `\d` are modelled by `pySpace` (ASCII
  whitespace plus the common Unicode whitespace code points matched by
  Python's `str`-pattern `\s`) and `pyDigit` (ASCII digits; Python also
  accepts non-ASCII decimal digits, which never occur in the documents
  under study);
* `str.lower` is modelled on ASCII letters (`lowerAscii`);
* CPython's `_checknetloc` NFKC check and the 3.11+ bracketed-host
  validation, which can only fire on non-ASCII or bracketed netlocs, are
  not modelled; the unbalanced-bracket `ValueError`, present in every
  CPython 3.x version, is modelled exactly.  Success (totality) theorems
  are therefore stated only for `plainNetloc` netlocs — all-ASCII and
  bracket-free — where no CPython netloc validation can fire and the
  model agrees with CPython;
* percent-decoding decodes UTF-8 byte runs with U+FFFD replacement
  (CPython `errors='replace'`).
-/

namespace FormatReport

/-- Python strings are modelled as lists of characters. -/
abbrev Str := List Char

/-- Whitespace as matched by Python's str-pattern `\s` and by
`str.strip()` / `str.rstrip()` with no argument. -/
def pySpace (c : Char) : Bool :=
  c == ' ' || c == '\t' || c == '\n' || c == '\r' || c == '\x0b' || c == '\x0c' ||
  (decide (0x1c ≤ c.toNat) && decide (c.toNat ≤ 0x1f)) ||
  c.toNat == 0x85 || c.toNat == 0xa0 || c.toNat == 0x1680 ||
  (decide (0x2000 ≤ c.toNat) && decide (c.toNat ≤ 0x200a)) ||
  c.toNat == 0x2028 || c.toNat == 0x2029 || c.toNat == 0x202f ||
  c.toNat == 0x205f || c.toNat == 0x3000

/-- ASCII decimal digit, the model of the regex class `\d`. -/
def pyDigit (c : Char) : Bool :=
  decide ('0' ≤ c) && decide (c ≤ '9')

/-- ASCII letter. -/
def asciiAlpha (c : Char) : Bool :=
  (decide ('a' ≤ c) && decide (c ≤ 'z')) || (decide ('A' ≤ c) && decide (c ≤ 'Z'))

def asciiAlphaNum (c : Char) : Bool := asciiAlpha c || pyDigit c

/-- `str.lower` on ASCII letters. -/
def lowerAscii (c : Char) : Char :=
  if decide ('A' ≤ c) && decide (c ≤ 'Z') then Char.ofNat (c.toNat + 32) else c

/-- `int(s)` on a string of decimal digits. -/
def strToNat (s : Str) : Nat :=
  s.foldl (fun a c => 10 * a + (c.toNat - 48)) 0

def digitChar (n : Nat) : Char := Char.ofNat (48 + n)

/-- Decimal digits of `n`, with fuel (any fuel greater than `n` is
sufficient since the argument strictly decreases; the wrapper below
always supplies enough).  Fuel keeps the recursion structural so that
concrete values reduce inside the kernel. -/
def natToStrF : Nat → Nat → Str
  | 0, _ => []
  | fuel + 1, n =>
    if n < 10 then [digitChar n]
    else natToStrF fuel (n / 10) ++ [digitChar (n % 10)]

/-- `str(n)` for a natural number. -/
def natToStr (n : Nat) : Str := natToStrF (n + 1) n

/-- `s.rstrip()`. -/
def rstrip (l : Str) : Str := (l.reverse.dropWhile pySpace).reverse

/-- `s.strip()`. -/
def stripWs (l : Str) : Str := rstrip (l.dropWhile pySpace)

/-- `s.split(sep)` for a one-character separator (keeps empty pieces,
like Python). -/
def splitOnChar (sep : Char) : Str → List Str
  | [] => [[]]
  | c :: rest =>
    match splitOnChar sep rest with
    | [] => [[c]]
    | l :: ls => if c == sep then [] :: l :: ls else (c :: l) :: ls

def findSubAux (pat : Str) : Str → Nat → Option Nat
  | [], i => if pat.isEmpty then some i else none
  | l@(_ :: rest), i => if pat.isPrefixOf l then some i else findSubAux pat rest (i + 1)

/-- `s.find(pat)`: index of the first occurrence of `pat` as a substring
(`none` models Python's `-1`). -/
def findSub (l pat : Str) : Option Nat := findSubAux pat l 0

/-- Python `dict` lookup. -/
def dictGet {α : Type} (m : List (Str × α)) (k : Str) : Option α :=
  match m.find? (fun p => p.1 == k) with
  | some p => some p.2
  | none => none

/-- Python `dict` assignment `m[k] = v`: overwrites in place, appends new
keys at the end (CPython insertion-order semantics). -/
def dictSet {α : Type} (m : List (Str × α)) (k : Str) (v : α) : List (Str × α) :=
  match m with
  | [] => [(k, v)]
  | p :: rest => if p.1 == k then (p.1, v) :: rest else p :: dictSet rest k v

/-- Stable insertion (after equal keys) used to model Python's stable
`sorted(..., key=int)`. -/
def insertByNat (x : Str) : List Str → List Str
  | [] => [x]
  | y :: ys => if strToNat y ≤ strToNat x then y :: insertByNat x ys else x :: y :: ys

/-- `sorted(l, key=int)` (stable). -/
def sortByNat (l : List Str) : List Str := l.foldl (fun acc x => insertByNat x acc) []

/-! ## URL canonicalizer (`strip_tracking_params` and its urllib model) -/

/-- Result of `urllib.parse.urlparse`. -/
structure UrlParts where
  scheme : Str
  netloc : Str
  path : Str
  params : Str
  query : Str
  fragment : Str
deriving DecidableEq, Repr

def schemeChar (c : Char) : Bool :=
  asciiAlphaNum c || c == '+' || c == '-' || c == '.'

def isC0OrSpace (c : Char) : Bool := decide (c.toNat ≤ 0x20)

/-- The scheme-splitting step of `urlsplit`. -/
def splitScheme (l : Str) : Str × Str :=
  match l.findIdx? (fun c => c == ':') with
  | some i =>
    if decide (0 < i) && (l.take i).all schemeChar &&
        (match l.head? with | some c => asciiAlpha c | none => false) then
      ((l.take i).map lowerAscii, l.drop (i + 1))
    else ([], l)
  | none => ([], l)

/-- `_splitparams` of `urllib.parse.urlparse`. -/
def splitPathParams (u : Str) : Str × Str :=
  if u.contains ';' then
    if u.contains '/' then
      match (u.reverse.findIdx? (fun c => c == '/')) with
      | some ri =>
        let slashIdx := u.length - 1 - ri
        match ((u.drop slashIdx).findIdx? (fun c => c == ';')) with
        | some j => (u.take (slashIdx + j), u.drop (slashIdx + j + 1))
        | none => (u, [])
      | none => (u, [])
    else
      match u.findIdx? (fun c => c == ';') with
      | some i => (u.take i, u.drop (i + 1))
      | none => (u, [])
  else (u, [])

/-- The input sanitizing of `urlsplit`: strip leading C0/space
characters, remove tabs and line breaks. -/
def sanitizeUrl (url0 : Str) : Str :=
  (url0.dropWhile isC0OrSpace).filter (fun c => !(c == '\t' || c == '\r' || c == '\n'))

/-- The netloc-splitting step of `urlsplit` (applied after the scheme
has been removed): `(netloc, rest)`. -/
def netlocSplit (r1 : Str) : Str × Str :=
  if (r1.take 2) == ['/', '/'] then
    let after := r1.drop 2
    (after.takeWhile (fun c => !(c == '/' || c == '?' || c == '#')),
     after.dropWhile (fun c => !(c == '/' || c == '?' || c == '#')))
  else ([], r1)

/-- The unbalanced-square-bracket test of `urlsplit` on the netloc: the
condition under which CPython raises `ValueError("Invalid IPv6 URL")`. -/
def badBrackets (netloc : Str) : Bool :=
  (netloc.contains '[' && !(netloc.contains ']')) ||
    (netloc.contains ']' && !(netloc.contains '['))

/-- The netloc `urlsplit` extracts from a raw URL string. -/
def netlocOf (url0 : Str) : Str :=
  (netlocSplit (splitScheme (sanitizeUrl url0)).2).1

/-- A netloc on which none of CPython's netloc validations can fire:
every character ASCII and no square bracket.  `_checknetloc` returns
immediately on an ASCII netloc (its NFKC test is guarded by
`netloc.isascii()`), and both the unbalanced-bracket `Invalid IPv6 URL`
check and the 3.11+ bracketed-host check require a bracket, so on this
domain `urlsplit` raises nothing in any CPython version that runs the
script, and the model below agrees with CPython exactly. -/
def plainNetloc (netloc : Str) : Bool :=
  netloc.all (fun c => decide (c.toNat < 0x80)) &&
    !(netloc.contains '[') && !(netloc.contains ']')

/-- `urllib.parse.urlparse`.  The modelled failure is CPython's
`ValueError("Invalid IPv6 URL")` for a netloc containing an unbalanced
square bracket.  CPython's further netloc validation — `_checknetloc`'s
NFKC check (which can reject balanced-bracket or non-ASCII netlocs such
as `http://℀`, whose netloc NFKC-normalizes to `a/c`) and the 3.11+
bracketed-host check — fires only on non-ASCII or bracketed netlocs and
is not modelled; success theorems about this model are therefore stated
only under `plainNetloc`, where no CPython validation can fire. -/
def urlparse (url0 : Str) : Except Str UrlParts :=
  let u2 := sanitizeUrl url0
  let sp := splitScheme u2
  let scheme := sp.1
  let nl := netlocSplit sp.2
  let netloc := nl.1
  let r2 := nl.2
  if badBrackets netloc then
    .error ("Invalid IPv6 URL").data
  else
    let fs :=
      match r2.findIdx? (fun c => c == '#') with
      | some i => (r2.take i, r2.drop (i + 1))
      | none => (r2, [])
    let qs :=
      match fs.1.findIdx? (fun c => c == '?') with
      | some i => (fs.1.take i, fs.1.drop (i + 1))
      | none => (fs.1, [])
    let pp := splitPathParams qs.1
    .ok ⟨scheme, netloc, pp.1, pp.2, qs.2, fs.2⟩

/-- `urllib.parse.urlunparse`. -/
def urlunparse (p : UrlParts) : Str :=
  let u0 := if p.params.isEmpty then p.path else p.path ++ ';' :: p.params
  let u1 :=
    if !p.netloc.isEmpty || (u0.take 2) == ['/', '/'] then
      let u0b := if !u0.isEmpty && !(u0.head? == some '/') then '/' :: u0 else u0
      '/' :: '/' :: (p.netloc ++ u0b)
    else u0
  let u2 := if !p.scheme.isEmpty then p.scheme ++ ':' :: u1 else u1
  let u3 := if !p.query.isEmpty then u2 ++ '?' :: p.query else u2
  if !p.fragment.isEmpty then u3 ++ '#' :: p.fragment else u3

/-- The fixed tracking-parameter denylist of the script. -/
def TRACKING_PARAMS : List Str :=
  [("utm_source").data, ("utm_medium").data, ("utm_campaign").data,
   ("utm_term").data, ("utm_content").data,
   ("fbclid").data, ("gclid").data, ("gclsrc").data, ("dclid").data,
   ("msclkid").data, ("mc_cid").data, ("mc_eid").data,
   ("ref").data, ("source").data, ("s").data, ("si").data]

def alwaysSafeChar (c : Char) : Bool :=
  asciiAlphaNum c || c == '_' || c == '.' || c == '-' || c == '~'

/-- UTF-8 encoding of one character. -/
def utf8Bytes (c : Char) : List Nat :=
  let n := c.toNat
  if n < 0x80 then [n]
  else if n < 0x800 then [0xc0 + n / 0x40, 0x80 + n % 0x40]
  else if n < 0x10000 then
    [0xe0 + n / 0x1000, 0x80 + (n / 0x40) % 0x40, 0x80 + n % 0x40]
  else
    [0xf0 + n / 0x40000, 0x80 + (n / 0x1000) % 0x40,
     0x80 + (n / 0x40) % 0x40, 0x80 + n % 0x40]

def hexUpper (n : Nat) : Char :=
  if n < 10 then Char.ofNat (48 + n) else Char.ofNat (55 + n)

def pctEncodeByte (b : Nat) : Str := ['%', hexUpper (b / 16), hexUpper (b % 16)]

/-- `urllib.parse.quote(s, safe)`. -/
def quoteChars (safe : Str) (s : Str) : Str :=
  (s.map (fun c =>
    if alwaysSafeChar c || safe.contains c then [c]
    else (utf8Bytes c).map pctEncodeByte |>.flatten)).flatten

/-- `urllib.parse.quote_plus(s)` with empty `safe`. -/
def quote_plus (s : Str) : Str :=
  if s.contains ' ' then
    (quoteChars [' '] s).map (fun c => if c == ' ' then '+' else c)
  else quoteChars [] s

def hexVal (c : Char) : Option Nat :=
  if pyDigit c then some (c.toNat - 48)
  else if decide ('a' ≤ c) && decide (c ≤ 'f') then some (c.toNat - 87)
  else if decide ('A' ≤ c) && decide (c ≤ 'F') then some (c.toNat - 55)
  else none

/-- Tokenize a percent-encoded string: `%XX` hex escapes become bytes,
all other characters stay literal. -/
def pctTokens : Str → List (Sum Char Nat)
  | '%' :: a :: b :: rest =>
    match hexVal a, hexVal b with
    | some x, some y => Sum.inr (16 * x + y) :: pctTokens rest
    | _, _ => Sum.inl '%' :: pctTokens (a :: b :: rest)
  | c :: rest => Sum.inl c :: pctTokens rest
  | [] => []

def contByte (b : Nat) : Bool := decide (0x80 ≤ b) && decide (b ≤ 0xbf)

/-- U+FFFD. -/
def repl : Char := Char.ofNat 0xfffd

/-- UTF-8 decoding with replacement on errors (CPython `errors='replace'`,
maximal-subpart replacement). -/
def utf8DecodeReplace : List Nat → Str
  | [] => []
  | b :: rest =>
    if b < 0x80 then Char.ofNat b :: utf8DecodeReplace rest
    else if 0xc2 ≤ b ∧ b ≤ 0xdf then
      match rest with
      | b2 :: r2 =>
        if contByte b2 then
          Char.ofNat ((b - 0xc0) * 0x40 + (b2 - 0x80)) :: utf8DecodeReplace r2
        else repl :: utf8DecodeReplace (b2 :: r2)
      | [] => [repl]
    else if 0xe0 ≤ b ∧ b ≤ 0xef then
      match rest with
      | b2 :: r2 =>
        if (if b = 0xe0 then 0xa0 else 0x80) ≤ b2 ∧ b2 ≤ (if b = 0xed then 0x9f else 0xbf) then
          match r2 with
          | b3 :: r3 =>
            if contByte b3 then
              Char.ofNat ((b - 0xe0) * 0x1000 + (b2 - 0x80) * 0x40 + (b3 - 0x80)) ::
                utf8DecodeReplace r3
            else repl :: utf8DecodeReplace (b3 :: r3)
          | [] => [repl]
        else repl :: utf8DecodeReplace (b2 :: r2)
      | [] => [repl]
    else if 0xf0 ≤ b ∧ b ≤ 0xf4 then
      match rest with
      | b2 :: r2 =>
        if (if b = 0xf0 then 0x90 else 0x80) ≤ b2 ∧ b2 ≤ (if b = 0xf4 then 0x8f else 0xbf) then
          match r2 with
          | b3 :: r3 =>
            if contByte b3 then
              match r3 with
              | b4 :: r4 =>
                if contByte b4 then
                  Char.ofNat ((b - 0xf0) * 0x40000 + (b2 - 0x80) * 0x1000 +
                    (b3 - 0x80) * 0x40 + (b4 - 0x80)) :: utf8DecodeReplace r4
                else repl :: utf8DecodeReplace (b4 :: r4)
              | [] => [repl]
            else repl :: utf8DecodeReplace (b3 :: r3)
          | [] => [repl]
        else repl :: utf8DecodeReplace (b2 :: r2)
      | [] => [repl]
    else repl :: utf8DecodeReplace rest

/-- Reassemble tokens, UTF-8-decoding each maximal byte run.  The
accumulator carries the current byte run in reverse. -/
def tokensDecodeAux (bs : List Nat) : List (Sum Char Nat) → Str
  | [] => utf8DecodeReplace bs.reverse
  | Sum.inl c :: rest => utf8DecodeReplace bs.reverse ++ c :: tokensDecodeAux [] rest
  | Sum.inr b :: rest => tokensDecodeAux (b :: bs) rest

def tokensDecode (l : List (Sum Char Nat)) : Str := tokensDecodeAux [] l

/-- `urllib.parse.unquote` (UTF-8, `errors='replace'`). -/
def unquote (s : Str) : Str := tokensDecode (pctTokens s)

/-- `urllib.parse.unquote_plus`. -/
def unquote_plus (s : Str) : Str :=
  unquote (s.map (fun c => if c == '+' then ' ' else c))

/-- `urllib.parse.parse_qsl(qs, keep_blank_values=True)` with the modern
default separator `&`. -/
def parse_qsl (qs : Str) : List (Str × Str) :=
  ((splitOnChar '&' qs).filter (fun p => !p.isEmpty)).map (fun nv =>
    match nv.findIdx? (fun c => c == '=') with
    | some i => (unquote_plus (nv.take i), unquote_plus (nv.drop (i + 1)))
    | none => (unquote_plus nv, []))

/-- Append one value to the entry for `k` (Python
`parsed_result[k].append(v)` with insertion-order dict). -/
def dictAppendVal (m : List (Str × List Str)) (k : Str) (v : Str) :
    List (Str × List Str) :=
  match m with
  | [] => [(k, [v])]
  | p :: rest => if p.1 == k then (p.1, p.2 ++ [v]) :: rest else p :: dictAppendVal rest k v

/-- `urllib.parse.parse_qs(qs, keep_blank_values=True)`. -/
def parse_qs (qs : Str) : List (Str × List Str) :=
  (parse_qsl qs).foldl (fun m p => dictAppendVal m p.1 p.2) []

/-- `urllib.parse.urlencode(m, doseq=True)` on a dict of value lists. -/
def urlencode (m : List (Str × List Str)) : Str :=
  List.intercalate ['&']
    ((m.map (fun p => p.2.map (fun v => quote_plus p.1 ++ '=' :: quote_plus v))).flatten)

/-- `strip_tracking_params` from the script. -/
def strip_tracking_params (url : Str) : Except Str Str := do
  let parsed ← urlparse url
  let params := parse_qs parsed.query
  let cleaned := params.filter (fun p => !(TRACKING_PARAMS.contains (p.1.map lowerAscii)))
  let cq := urlencode cleaned
  pure (urlunparse { parsed with query := cq })

/-! ## The reference-entry pattern
`^\[(\d+)\]\s+(.+?)\s*—\s*(https?://\S+)` with `re.MULTILINE`.

The pattern is compiled into a deterministic backtracking matcher.
Backtracking collapses: after the literal `—` the following `\s*` and
`https?://` admit exactly one viable split (a shorter whitespace run
would put a whitespace character where a literal is required), and
likewise for `\s*` before `—` and for greedy `\d+`/`\S+`.  The two
remaining genuine choice points — greedy `\s+` (longest first) and lazy
`(.+?)` (shortest first) — are searched explicitly. -/

/-- `https?://\S+` (greedy, at least one non-space character). -/
def matchUrl : Str → Option (Str × Str)
  | 'h' :: 't' :: 't' :: 'p' :: 's' :: ':' :: '/' :: '/' :: r =>
    if (r.takeWhile (fun c => !pySpace c)).isEmpty then none
    else some ('h' :: 't' :: 't' :: 'p' :: 's' :: ':' :: '/' :: '/' ::
        r.takeWhile (fun c => !pySpace c),
      r.drop (r.takeWhile (fun c => !pySpace c)).length)
  | 'h' :: 't' :: 't' :: 'p' :: ':' :: '/' :: '/' :: r =>
    if (r.takeWhile (fun c => !pySpace c)).isEmpty then none
    else some ('h' :: 't' :: 't' :: 'p' :: ':' :: '/' :: '/' ::
        r.takeWhile (fun c => !pySpace c),
      r.drop (r.takeWhile (fun c => !pySpace c)).length)
  | _ => none

/-- `\s*—\s*(https?://\S+)`: returns the captured URL and the rest. -/
def matchDashUrl (l : Str) : Option (Str × Str) :=
  match l.dropWhile pySpace with
  | '—' :: r => matchUrl (r.dropWhile pySpace)
  | _ => none

/-- `(.+?)\s*—\s*(https?://\S+)`: lazy title (no newline, shortest
first), then the deterministic tail. -/
def matchTitleTail : Str → Option (Str × Str × Str)
  | [] => none
  | c :: rest =>
    if c == '\n' then none
    else
      match matchDashUrl rest with
      | some (u, r) => some ([c], u, r)
      | none =>
        match matchTitleTail rest with
        | some (t, u, r) => some (c :: t, u, r)
        | none => none

/-- Greedy `\s+`: try taking `k` whitespace characters, longest first. -/
def tryWsLens (l : Str) : Nat → Option (Str × Str × Str)
  | 0 => none
  | k + 1 =>
    match matchTitleTail (l.drop (k + 1)) with
    | some r => some r
    | none => tryWsLens l k

/-- `\s+(.+?)\s*—\s*(https?://\S+)`. -/
def matchAfterNum (l : Str) : Option (Str × Str × Str) :=
  tryWsLens l (l.takeWhile pySpace).length

/-- The whole reference-entry pattern at one position:
returns `(number, raw title, url, rest after the match)`. -/
def matchRefAt : Str → Option (Str × Str × Str × Str)
  | '[' :: r =>
    if (r.takeWhile pyDigit).isEmpty then none
    else
      match r.drop (r.takeWhile pyDigit).length with
      | ']' :: r2 =>
        match matchAfterNum r2 with
        | some (t, u, rest) => some (r.takeWhile pyDigit, t, u, rest)
        | none => none
      | _ => none
  | _ => none

theorem length_dropWhile_le' (p : Char → Bool) (l : Str) :
    (l.dropWhile p).length ≤ l.length := by
  induction l with
  | nil => simp [List.dropWhile]
  | cons c rest ih =>
    simp only [List.dropWhile]
    split
    · exact Nat.le_succ_of_le ih
    · simp

theorem matchUrl_len (l u r : Str) (h : matchUrl l = some (u, r)) :
    r.length < l.length := by
  unfold matchUrl at h
  split at h
  · split at h
    · exact absurd h (by simp)
    · cases h
      simp only [List.length_drop, List.length_cons]
      omega
  · split at h
    · exact absurd h (by simp)
    · cases h
      simp only [List.length_drop, List.length_cons]
      omega
  · exact absurd h (by simp)

theorem matchDashUrl_len (l u r : Str) (h : matchDashUrl l = some (u, r)) :
    r.length < l.length := by
  unfold matchDashUrl at h
  split at h
  case _ r0 heq =>
    have h1 := matchUrl_len _ _ _ h
    have h2 := length_dropWhile_le' pySpace r0
    have h3 : ('—' :: r0).length ≤ l.length := by
      rw [← heq]; exact length_dropWhile_le' pySpace l
    simp only [List.length_cons] at h3
    omega
  case _ => exact absurd h (by simp)

theorem matchTitleTail_len (l t u r : Str) (h : matchTitleTail l = some (t, u, r)) :
    r.length < l.length := by
  induction l generalizing t with
  | nil => exact absurd h (by simp [matchTitleTail])
  | cons c rest ih =>
    unfold matchTitleTail at h
    split at h
    · exact absurd h (by simp)
    · split at h
      case _ u0 r0 heq =>
        cases h
        have := matchDashUrl_len _ _ _ heq
        simp only [List.length_cons]
        omega
      case _ =>
        split at h
        case _ t0 u0 r0 heq =>
          cases h
          have := ih _ heq
          simp only [List.length_cons]
          omega
        case _ => exact absurd h (by simp)

theorem tryWsLens_len (l : Str) (k : Nat) (t u r : Str)
    (h : tryWsLens l k = some (t, u, r)) : r.length < l.length := by
  induction k with
  | zero => exact absurd h (by simp [tryWsLens])
  | succ k ih =>
    unfold tryWsLens at h
    split at h
    case _ val heq =>
      cases h
      have h1 := matchTitleTail_len _ _ _ _ heq
      simp only [List.length_drop] at h1
      omega
    case _ => exact ih h

theorem matchAfterNum_len (l t u r : Str) (h : matchAfterNum l = some (t, u, r)) :
    r.length < l.length :=
  tryWsLens_len l _ t u r h

theorem matchRefAt_len (l n t u r : Str) (h : matchRefAt l = some (n, t, u, r)) :
    r.length < l.length := by
  unfold matchRefAt at h
  split at h
  case _ r0 =>
    split at h
    · exact absurd h (by simp)
    · split at h
      case _ r2 heq =>
        split at h
        case _ t0 u0 rest0 heq2 =>
          cases h
          have h1 := matchAfterNum_len _ _ _ _ heq2
          have h2 : (r0.drop (r0.takeWhile pyDigit).length).length ≤ r0.length := by
            simp only [List.length_drop]; omega
          rw [heq] at h2
          simp only [List.length_cons] at h2 ⊢
          omega
        case _ => exact absurd h (by simp)
      case _ => exact absurd h (by simp)
  case _ => exact absurd h (by simp)

/-- `finditer` of the reference pattern over the whole text with the
`re.MULTILINE` `^` anchor: try to match at the start of the text and
right after every newline; after a match, continue scanning after it.
Fuel keeps the recursion structural; by `matchRefAt_len` every step
consumes at least one character, so fuel `l.length + 1` (supplied by the
wrapper) never runs out. -/
def scanRefsF : Nat → Str → Bool → List (Str × Str × Str)
  | 0, _, _ => []
  | _ + 1, [], _ => []
  | fuel + 1, c :: rest, atStart =>
    if atStart then
      match matchRefAt (c :: rest) with
      | some (n, t, u, r) => (n, t, u) :: scanRefsF fuel r false
      | none => scanRefsF fuel rest (c == '\n')
    else scanRefsF fuel rest (c == '\n')

def scanRefs (l : Str) (atStart : Bool) : List (Str × Str × Str) :=
  scanRefsF (l.length + 1) l atStart

/-- `parse_references` from the script: every pattern match anywhere in
the text becomes a dict entry (later entries for the same number win);
the URL is canonicalized on the way in. -/
def parse_references (text : Str) : Except Str (List (Str × (Str × Str))) :=
  (scanRefs text true).foldlM (fun refs m => do
    let su ← strip_tracking_params (stripWs m.2.2)
    pure (dictSet refs m.1 (stripWs m.2.1, su))) []

/-! ## Inline-citation scanning -/

/-- `finditer` of `\[(\d+)\]`: all bracketed integers, left to right,
non-overlapping.  Fuel keeps the recursion structural; every step
consumes at least one character, so fuel `l.length + 1` (supplied by the
wrapper) never runs out. -/
def citMatchesF : Nat → Str → List Str
  | 0, _ => []
  | _ + 1, [] => []
  | fuel + 1, '[' :: rest =>
    if (rest.takeWhile pyDigit).isEmpty then citMatchesF fuel rest
    else
      match rest.drop (rest.takeWhile pyDigit).length with
      | ']' :: _ =>
        rest.takeWhile pyDigit :: citMatchesF fuel (rest.drop ((rest.takeWhile pyDigit).length + 1))
      | _ => citMatchesF fuel rest
  | fuel + 1, _ :: rest => citMatchesF fuel rest

def citMatches (l : Str) : List Str := citMatchesF (l.length + 1) l

/-- `re.match(r"^##\s+References", line)`: a prefix match — `##`, at
least one whitespace character, then the literal `References`, with
anything allowed after it. -/
def matchesHeadingRef (line : Str) : Bool :=
  match line with
  | '#' :: '#' :: rest =>
    !(rest.takeWhile pySpace).isEmpty &&
      ("References").data.isPrefixOf (rest.drop (rest.takeWhile pySpace).length)
  | _ => false

/-- `line.startswith("## ")`. -/
def startsHeading (line : Str) : Bool := ("## ").data.isPrefixOf line

/-- `set.add` modelled as first-occurrence-order insertion. -/
def setAdd (acc : List Str) (x : Str) : List Str :=
  if acc.contains x then acc else acc ++ [x]

/-- One line of the `find_inline_citations` loop: state is
(`in_references`, collected citations). -/
def citScanStep (st : Bool × List Str) (line : Str) : Bool × List Str :=
  if matchesHeadingRef line then (true, st.2)
  else
    let inRefs := if st.1 && startsHeading line then false else st.1
    if inRefs then (inRefs, st.2)
    else (inRefs, (citMatches line).foldl setAdd st.2)

/-- `find_inline_citations` from the script. -/
def find_inline_citations (text : Str) : List Str :=
  sortByNat (((splitOnChar '\n' text).foldl citScanStep (false, [])).2)

/-- Specification-level replay of the scanner's state machine that keeps
the lines scanned for citations (those processed outside the reference
section) instead of the citations themselves. -/
def linesOutside : Bool → List Str → List Str
  | _, [] => []
  | inRefs, line :: rest =>
    if matchesHeadingRef line then linesOutside true rest
    else if inRefs && startsHeading line then line :: linesOutside false rest
    else if inRefs then linesOutside inRefs rest
    else line :: linesOutside inRefs rest

/-! ## Renumbering -/

def rHeading : Str := ("## References").data

/-- The body considered for citation order:
`text[:text.find("## References")]`, or the whole text. -/
def bodyOf (text : Str) : Str :=
  match findSub text rHeading with
  | some i => text.take i
  | none => text

/-- First-appearance order of body citations that have a matching
reference. -/
def seenOrder (refs : List (Str × (Str × Str))) (body : Str) : List Str :=
  (citMatches body).foldl (fun seen n =>
    if !seen.contains n && (dictGet refs n).isSome then seen ++ [n] else seen) []

/-- State of the new-number assignment loop. -/
structure AssignState where
  urlToCanon : List (Str × Str)
  oldToNew : List (Str × Str)
  nextNum : Nat
  newRefs : List (Str × (Str × Str))
deriving DecidableEq, Repr

/-- One iteration of the assignment loop (dedup by canonical URL). -/
def assignStep (refs : List (Str × (Str × Str))) (st : AssignState) (old : Str) :
    AssignState :=
  match dictGet refs old with
  | none => st
  | some tv =>
    match dictGet st.urlToCanon tv.2 with
    | some canon => { st with oldToNew := dictSet st.oldToNew old canon }
    | none =>
      { urlToCanon := dictSet st.urlToCanon tv.2 (natToStr st.nextNum),
        oldToNew := dictSet st.oldToNew old (natToStr st.nextNum),
        nextNum := st.nextNum + 1,
        newRefs := dictSet st.newRefs (natToStr st.nextNum) tv }

def assignInit : AssignState := ⟨[], [], 1, []⟩

def assignAll (refs : List (Str × (Str × Str))) (seen : List Str) : AssignState :=
  seen.foldl (assignStep refs) assignInit

/-- `re.sub(r"\[(\d+)\]", replace_citation, body)`: rewrite mapped
citation numbers, leave unmapped ones verbatim.  Fuel as in
`citMatchesF`. -/
def subCitationsF (m : List (Str × Str)) : Nat → Str → Str
  | 0, _ => []
  | _ + 1, [] => []
  | fuel + 1, '[' :: rest =>
    if (rest.takeWhile pyDigit).isEmpty then '[' :: subCitationsF m fuel rest
    else
      match rest.drop (rest.takeWhile pyDigit).length with
      | ']' :: _ =>
        '[' :: ((dictGet m (rest.takeWhile pyDigit)).getD (rest.takeWhile pyDigit)) ++
          ']' :: subCitationsF m fuel (rest.drop ((rest.takeWhile pyDigit).length + 1))
      | _ => '[' :: subCitationsF m fuel rest
  | fuel + 1, c :: rest => c :: subCitationsF m fuel rest

def subCitations (m : List (Str × Str)) (l : Str) : Str :=
  subCitationsF m (l.length + 1) l

/-- `f"[{num}] {title} — {url}"`. -/
def entryLine (n : Str) (tv : Str × Str) : Str :=
  '[' :: n ++ ']' :: ' ' :: tv.1 ++ (" — ").data ++ tv.2

/-- The rebuilt reference-section lines: heading, then one line per new
entry in ascending numeric order of the new number. -/
def refLinesOf (newRefs : List (Str × (Str × Str))) : List Str :=
  rHeading :: (sortByNat (newRefs.map Prod.fst)).map (fun n =>
    match dictGet newRefs n with
    | some tv => entryLine n tv
    | none => [])

def findTailAux : Str → Nat → Option Nat
  | [], _ => none
  | l@(_ :: rest), i =>
    if ("\n## ").data.isPrefixOf l && !(("References").data.isPrefixOf (l.drop 4)) then
      some i
    else findTailAux rest (i + 1)

/-- `re.search(r"\n## (?!References)", after_refs)`. -/
def findTailStart (after : Str) : Option Nat := findTailAux after 0

/-- The preserved tail: from the next non-References heading after the
reference-section start (empty when there is none). -/
def tailOf (text : Str) : Str :=
  match findSub text rHeading with
  | some i =>
    match findTailStart (text.drop i) with
    | some j => (text.drop i).drop j
    | none => []
  | none => []

/-- `renumber_citations` from the script. -/
def renumber_citations (text : Str) : Except Str Str := do
  let refs ← parse_references text
  if refs.isEmpty then
    pure text
  else
    let st := assignAll refs (seenOrder refs (bodyOf text))
    let newBody := subCitations st.oldToNew (bodyOf text)
    let joined := List.intercalate ['\n'] (refLinesOf st.newRefs)
    pure (rstrip newBody ++ ('\n' :: '\n' :: joined) ++ '\n' :: tailOf text)

/-! ## Validation -/

def orphanMsg (n : Str) : Str :=
  ("Citation [").data ++ n ++ ("] has no matching reference").data

def unusedMsg (n : Str) : Str :=
  ("Reference [").data ++ n ++ ("] is never cited in the text").data

/-- `f"Duplicate URL: [{num}] and [{urls[url]}] point to {url}"` — the
later-encountered number comes first. -/
def dupMsg (later earlier url : Str) : Str :=
  ("Duplicate URL: [").data ++ later ++ ("] and [").data ++ earlier ++
    ("] point to ").data ++ url

/-- One iteration of the duplicate-URL loop: state is
(url → first number seen, warnings so far). -/
def dupStep (st : List (Str × Str) × List Str) (item : Str × (Str × Str)) :
    List (Str × Str) × List Str :=
  match dictGet st.1 item.2.2 with
  | some first => (st.1, st.2 ++ [dupMsg item.1 first item.2.2])
  | none => (dictSet st.1 item.2.2 item.1, st.2)

def dupWarnings (refs : List (Str × (Str × Str))) : List Str :=
  (refs.foldl dupStep ([], [])).2

/-- `validate` from the script. -/
def validate (text : Str) : Except Str (List Str) := do
  let refs ← parse_references text
  let inline := find_inline_citations text
  let orphans := inline.filter (fun n => !(dictGet refs n).isSome)
  let unused := (refs.map Prod.fst).filter (fun n => !inline.contains n)
  pure ((sortByNat orphans).map orphanMsg ++ (sortByNat unused).map unusedMsg ++
    dupWarnings refs)

/-- Decidable equality for `Except`, used to evaluate the embedded
functions at concrete inputs. -/
instance {e a : Type} [DecidableEq e] [DecidableEq a] : DecidableEq (Except e a) :=
  fun x y =>
    match x, y with
    | .error a1, .error a2 =>
      if h : a1 = a2 then isTrue (by rw [h]) else
        isFalse (by intro hh; injection hh with hh2; exact h hh2)
    | .ok a1, .ok a2 =>
      if h : a1 = a2 then isTrue (by rw [h]) else
        isFalse (by intro hh; injection hh with hh2; exact h hh2)
    | .error _, .ok _ => isFalse (by intro hh; exact Except.noConfusion hh)
    | .ok _, .error _ => isFalse (by intro hh; exact Except.noConfusion hh)

/-! ## Analysis helpers (specification-level descriptions of the loops) -/

/-- How one processed old number extends the list of canonical URLs seen
so far (first-occurrence order, deduplicated). -/
def urlStep (refs : List (Str × (Str × Str))) (us : List Str) (o : Str) : List Str :=
  match dictGet refs o with
  | some tv => setAdd us tv.2
  | none => us

/-- The distinct canonical URLs reachable from a processed list of old
numbers, in first-appearance order. -/
def urlsSeen (refs : List (Str × (Str × Str))) (done : List Str) : List Str :=
  done.foldl (urlStep refs) []

/-- Number a URL list sequentially starting at 1. -/
def enumUrls (us : List Str) : List (Str × Str) :=
  us.enum.map (fun p => (p.2, natToStr (p.1 + 1)))

/-- The invariant of the assignment loop after processing `done`. -/
def AssignInv (refs : List (Str × (Str × Str))) (done : List Str)
    (st : AssignState) : Prop :=
  st.urlToCanon = enumUrls (urlsSeen refs done)
  ∧ st.nextNum = (urlsSeen refs done).length + 1
  ∧ st.newRefs.map Prod.fst = (List.range' 1 (urlsSeen refs done).length).map natToStr
  ∧ (∀ o tv, o ∈ done → dictGet refs o = some tv →
      dictGet st.oldToNew o = dictGet st.urlToCanon tv.2)
  ∧ (∀ o, (dictGet st.oldToNew o).isSome → o ∈ done ∧ (dictGet refs o).isSome)

/-! ## Basic lemmas: numerals, dicts, set-insertion, sorting -/

theorem strToNat_append_digit (l : Str) (c : Char) :
    strToNat (l ++ [c]) = 10 * strToNat l + (c.toNat - 48) := by
  simp [strToNat, List.foldl_append]

theorem digitChar_toNat (n : Nat) (h : n < 10) : (digitChar n).toNat = 48 + n := by
  interval_cases n <;> decide

theorem strToNat_natToStrF (fuel : Nat) : ∀ n : Nat, n < fuel →
    strToNat (natToStrF fuel n) = n := by
  induction fuel with
  | zero =>
    intro n hn
    omega
  | succ fuel ih =>
    intro n hn
    show strToNat (if n < 10 then [digitChar n]
      else natToStrF fuel (n / 10) ++ [digitChar (n % 10)]) = n
    split
    case isTrue h =>
      have h2 : strToNat [digitChar n] = (digitChar n).toNat - 48 := by simp [strToNat]
      rw [h2, digitChar_toNat n h]
      omega
    case isFalse h =>
      have hd : n / 10 < fuel := by
        have := Nat.div_lt_self (show 0 < n by omega) (show 1 < 10 by omega)
        omega
      rw [strToNat_append_digit, ih (n / 10) hd,
        digitChar_toNat (n % 10) (Nat.mod_lt _ (by omega))]
      omega

theorem strToNat_natToStr (n : Nat) : strToNat (natToStr n) = n :=
  strToNat_natToStrF (n + 1) n (by omega)

theorem natToStr_inj {a b : Nat} (h : natToStr a = natToStr b) : a = b := by
  have := congrArg strToNat h
  rwa [strToNat_natToStr, strToNat_natToStr] at this

theorem natToStr_ne_nil (n : Nat) : natToStr n ≠ [] := by
  show (if n < 10 then [digitChar n]
    else natToStrF n (n / 10) ++ [digitChar (n % 10)]) ≠ []
  split <;> simp

theorem natToStrF_digits (fuel : Nat) : ∀ n : Nat, n < fuel →
    ∀ c ∈ natToStrF fuel n, pyDigit c := by
  induction fuel with
  | zero =>
    intro n hn
    omega
  | succ fuel ih =>
    intro n hn
    show ∀ c ∈ (if n < 10 then [digitChar n]
      else natToStrF fuel (n / 10) ++ [digitChar (n % 10)]), pyDigit c
    split
    case isTrue h =>
      intro c hc
      simp only [List.mem_singleton] at hc
      subst hc
      unfold digitChar
      interval_cases n <;> decide
    case isFalse h =>
      intro c hc
      rcases List.mem_append.mp hc with h1 | h1
      · have hd : n / 10 < fuel := by
          have := Nat.div_lt_self (show 0 < n by omega) (show 1 < 10 by omega)
          omega
        exact ih (n / 10) hd c h1
      · simp only [List.mem_singleton] at h1
        subst h1
        unfold digitChar
        have hm : n % 10 < 10 := Nat.mod_lt _ (by omega)
        interval_cases (n % 10) <;> decide

theorem natToStr_digits (n : Nat) : ∀ c ∈ natToStr n, pyDigit c :=
  natToStrF_digits (n + 1) n (by omega)

theorem dictGet_cons {α : Type} (p : Str × α) (m : List (Str × α)) (k : Str) :
    dictGet (p :: m) k = if p.1 = k then some p.2 else dictGet m k := by
  by_cases h : p.1 = k
  · simp [dictGet, List.find?_cons_of_pos, h]
  · simp only [dictGet, h, if_false]
    rw [List.find?_cons_of_neg]
    simp [h]

theorem dictGet_dictSet_self {α : Type} (m : List (Str × α)) (k : Str) (v : α) :
    dictGet (dictSet m k v) k = some v := by
  induction m with
  | nil => simp [dictSet, dictGet_cons]
  | cons p rest ih =>
    simp only [dictSet]
    by_cases h : p.1 = k
    · simp [dictGet_cons, h]
    · simp only [h, beq_iff_eq, if_false]
      rw [dictGet_cons, if_neg h]
      exact ih

theorem dictGet_nil {α : Type} (k : Str) : dictGet ([] : List (Str × α)) k = none := rfl

theorem dictGet_dictSet_ne {α : Type} (m : List (Str × α)) (k k' : Str) (v : α)
    (h : k' ≠ k) : dictGet (dictSet m k v) k' = dictGet m k' := by
  induction m with
  | nil =>
    show dictGet [(k, v)] k' = none
    rw [dictGet_cons, if_neg (fun hh => h hh.symm)]
    rfl
  | cons p rest ih =>
    simp only [dictSet]
    by_cases hp : p.1 = k
    · rw [if_pos (by simpa using hp), dictGet_cons, dictGet_cons]
      have hne : ¬p.1 = k' := by rw [hp]; exact fun hh => h hh.symm
      rw [if_neg hne, if_neg hne]
    · rw [if_neg (by simpa using hp), dictGet_cons, dictGet_cons]
      split
      · rfl
      · exact ih

theorem dictSet_fresh {α : Type} (m : List (Str × α)) (k : Str) (v : α)
    (h : dictGet m k = none) : dictSet m k v = m ++ [(k, v)] := by
  induction m with
  | nil => simp [dictSet]
  | cons p rest ih =>
    rw [dictGet_cons] at h
    by_cases hp : p.1 = k
    · simp [hp] at h
    · simp only [dictSet]
      rw [if_neg (by simpa using hp)]
      rw [if_neg hp] at h
      rw [ih h]
      rfl

theorem dictGet_append {α : Type} (m1 m2 : List (Str × α)) (k : Str) :
    dictGet (m1 ++ m2) k =
      match dictGet m1 k with
      | some v => some v
      | none => dictGet m2 k := by
  induction m1 with
  | nil => rfl
  | cons p rest ih =>
    rw [List.cons_append, dictGet_cons, dictGet_cons]
    split
    · rfl
    · exact ih

theorem dictGet_eq_none_iff {α : Type} (m : List (Str × α)) (k : Str) :
    dictGet m k = none ↔ k ∉ m.map Prod.fst := by
  induction m with
  | nil =>
    rw [dictGet_nil, List.map_nil]
    exact iff_of_true rfl (List.not_mem_nil k)
  | cons p rest ih =>
    rw [dictGet_cons]
    by_cases h : p.1 = k
    · subst h
      rw [if_pos rfl]
      constructor
      · intro hh
        exact Option.noConfusion hh
      · intro hh
        exfalso
        apply hh
        rw [List.map_cons]
        exact List.mem_cons_self _ _
    · rw [if_neg h, ih]
      simp only [List.map_cons, List.mem_cons]
      constructor
      · intro hh hmem
        rcases hmem with hmem | hmem
        · exact h hmem.symm
        · exact hh hmem
      · intro hh hm
        exact hh (Or.inr hm)

theorem dictGet_isSome_iff {α : Type} (m : List (Str × α)) (k : Str) :
    (dictGet m k).isSome ↔ k ∈ m.map Prod.fst := by
  rw [← not_iff_not, ← dictGet_eq_none_iff]
  cases dictGet m k <;> simp

theorem mem_setAdd (acc : List Str) (x y : Str) :
    y ∈ setAdd acc x ↔ y ∈ acc ∨ y = x := by
  unfold setAdd
  split
  case isTrue h =>
    constructor
    · exact fun hh => Or.inl hh
    · rintro (hh | rfl)
      · exact hh
      · simpa using h
  case isFalse h => simp

theorem setAdd_of_mem {acc : List Str} {x : Str} (h : x ∈ acc) : setAdd acc x = acc := by
  unfold setAdd
  rw [if_pos (by simpa using h)]

theorem setAdd_of_not_mem {acc : List Str} {x : Str} (h : x ∉ acc) :
    setAdd acc x = acc ++ [x] := by
  unfold setAdd
  rw [if_neg (by simpa using h)]

theorem insertByNat_append_of_le (x : Str) (l : List Str)
    (h : ∀ y ∈ l, strToNat y ≤ strToNat x) : insertByNat x l = l ++ [x] := by
  induction l with
  | nil => rfl
  | cons y ys ih =>
    unfold insertByNat
    rw [if_pos (h y (by simp)), ih (fun z hz => h z (by simp [hz]))]
    rfl

theorem foldl_insertByNat_sorted (acc l : List Str)
    (h : (acc ++ l).Pairwise (fun a b => strToNat a ≤ strToNat b)) :
    l.foldl (fun a x => insertByNat x a) acc = acc ++ l := by
  induction l generalizing acc with
  | nil => simp
  | cons x rest ih =>
    have hx : ∀ y ∈ acc, strToNat y ≤ strToNat x := by
      intro y hy
      exact (List.pairwise_append.mp h).2.2 y hy x (by simp)
    rw [List.foldl_cons, insertByNat_append_of_le x acc hx, ih (acc ++ [x]) (by
      rw [List.append_assoc, List.singleton_append]; exact h)]
    rw [List.append_assoc, List.singleton_append]

theorem sortByNat_of_pairwise (l : List Str)
    (h : l.Pairwise (fun a b => strToNat a ≤ strToNat b)) : sortByNat l = l := by
  unfold sortByNat
  simpa using foldl_insertByNat_sorted [] l (by simpa using h)

theorem insertByNat_perm (x : Str) (l : List Str) :
    (insertByNat x l).Perm (x :: l) := by
  induction l with
  | nil => rfl
  | cons y ys ih =>
    unfold insertByNat
    split
    · exact ((ih.cons y).trans (List.Perm.swap x y ys))
    · rfl

theorem foldl_insertByNat_perm (acc l : List Str) :
    (l.foldl (fun a x => insertByNat x a) acc).Perm (acc ++ l) := by
  induction l generalizing acc with
  | nil => simp
  | cons x rest ih =>
    rw [List.foldl_cons]
    refine (ih (insertByNat x acc)).trans ?_
    have h1 : (insertByNat x acc).Perm (x :: acc) := insertByNat_perm x acc
    refine (h1.append_right rest).trans ?_
    have : (x :: acc ++ rest).Perm (acc ++ x :: rest) := List.perm_middle.symm
    simpa using this

theorem sortByNat_perm (l : List Str) : (sortByNat l).Perm l := by
  unfold sortByNat
  simpa using foldl_insertByNat_perm [] l

theorem mem_sortByNat (l : List Str) (x : Str) : x ∈ sortByNat l ↔ x ∈ l :=
  (sortByNat_perm l).mem_iff

theorem insertByNat_pairwise (x : Str) (l : List Str)
    (h : l.Pairwise (fun a b => strToNat a ≤ strToNat b)) :
    (insertByNat x l).Pairwise (fun a b => strToNat a ≤ strToNat b) := by
  induction l with
  | nil => simp [insertByNat]
  | cons y ys ih =>
    unfold insertByNat
    split
    case isTrue hle =>
      rw [List.pairwise_cons]
      refine ⟨?_, ih (List.pairwise_cons.mp h).2⟩
      intro z hz
      rcases List.mem_cons.mp ((insertByNat_perm x ys).mem_iff.mp hz) with rfl | hz2
      · exact hle
      · exact (List.pairwise_cons.mp h).1 z hz2
    case isFalse hle =>
      rw [List.pairwise_cons]
      refine ⟨?_, h⟩
      intro z hz
      rcases List.mem_cons.mp hz with rfl | hz2
      · omega
      · have := (List.pairwise_cons.mp h).1 z hz2
        omega

theorem sortByNat_pairwise (l : List Str) :
    (sortByNat l).Pairwise (fun a b => strToNat a ≤ strToNat b) := by
  unfold sortByNat
  have : ∀ acc, acc.Pairwise (fun a b => strToNat a ≤ strToNat b) →
      (l.foldl (fun a x => insertByNat x a) acc).Pairwise
        (fun a b => strToNat a ≤ strToNat b) := by
    induction l with
    | nil => intro acc h; simpa using h
    | cons x rest ih =>
      intro acc h
      rw [List.foldl_cons]
      exact ih _ (insertByNat_pairwise x acc h)
  exact this [] (by simp)

theorem sortByNat_idem (l : List Str) : sortByNat (sortByNat l) = sortByNat l :=
  sortByNat_of_pairwise _ (sortByNat_pairwise l)

/-! ## Lemmas about the URL bookkeeping and the assignment loop -/

theorem enumUrls_map_fst (us : List Str) : (enumUrls us).map Prod.fst = us := by
  unfold enumUrls
  rw [List.map_map]
  have h : (Prod.fst ∘ fun p : Nat × Str => (p.2, natToStr (p.1 + 1))) = Prod.snd := rfl
  rw [h, List.enum_map_snd]

theorem enumUrls_append_one (us : List Str) (u : Str) :
    enumUrls (us ++ [u]) = enumUrls us ++ [(u, natToStr (us.length + 1))] := by
  unfold enumUrls
  rw [List.enum_append us [u], List.map_append]
  rfl

theorem dictGet_enumUrls_isSome (us : List Str) (u : Str) :
    (dictGet (enumUrls us) u).isSome ↔ u ∈ us := by
  rw [dictGet_isSome_iff, enumUrls_map_fst]

theorem dictGet_enumUrls_head (u : Str) (tl : List Str) :
    dictGet (enumUrls (u :: tl)) u = some (natToStr 1) := by
  show dictGet ((u, natToStr (0 + 1)) :: (List.enumFrom 1 tl).map
    (fun p : Nat × Str => (p.2, natToStr (p.1 + 1)))) u = some (natToStr 1)
  rw [dictGet_cons, if_pos rfl]

theorem urlStep_none {refs : List (Str × (Str × Str))} {us : List Str} {o : Str}
    (h : dictGet refs o = none) : urlStep refs us o = us := by
  unfold urlStep
  rw [h]

theorem urlStep_some {refs : List (Str × (Str × Str))} {us : List Str} {o : Str}
    {tv : Str × Str} (h : dictGet refs o = some tv) :
    urlStep refs us o = setAdd us tv.2 := by
  unfold urlStep
  rw [h]

theorem mem_urlStep_of_mem {refs : List (Str × (Str × Str))} {us : List Str}
    {o x : Str} (h : x ∈ us) : x ∈ urlStep refs us o := by
  unfold urlStep
  split
  · exact (mem_setAdd _ _ _).mpr (Or.inl h)
  · exact h

theorem mem_foldl_urlStep_of_mem {refs : List (Str × (Str × Str))} (l : List Str)
    (us : List Str) (x : Str) (h : x ∈ us) : x ∈ l.foldl (urlStep refs) us := by
  induction l generalizing us with
  | nil => exact h
  | cons o rest ih => exact ih _ (mem_urlStep_of_mem h)

theorem mem_urlsSeen_of_mem {refs : List (Str × (Str × Str))} {done : List Str}
    {o : Str} {tv : Str × Str} (ho : o ∈ done) (h : dictGet refs o = some tv) :
    tv.2 ∈ urlsSeen refs done := by
  unfold urlsSeen
  suffices H : ∀ (l : List Str) (us : List Str), o ∈ l →
      tv.2 ∈ l.foldl (urlStep refs) us by
    exact H done [] ho
  intro l
  induction l with
  | nil => intro us hh; cases hh
  | cons a rest ih =>
    intro us hh
    rw [List.foldl_cons]
    rcases List.mem_cons.mp hh with rfl | hh2
    · apply mem_foldl_urlStep_of_mem
      rw [urlStep_some h]
      exact (mem_setAdd _ _ _).mpr (Or.inr rfl)
    · exact ih _ hh2

theorem prefix_urlStep (refs : List (Str × (Str × Str))) (us : List Str) (o : Str) :
    us <+: urlStep refs us o := by
  unfold urlStep
  split
  · unfold setAdd
    split
    · exact List.prefix_refl _
    · exact ⟨_, rfl⟩
  · exact List.prefix_refl _

theorem prefix_foldl_urlStep (refs : List (Str × (Str × Str))) (l : List Str) :
    ∀ us : List Str, us <+: l.foldl (urlStep refs) us := by
  induction l with
  | nil =>
    intro us
    exact List.prefix_refl _
  | cons o rest ih =>
    intro us
    rw [List.foldl_cons]
    exact (prefix_urlStep refs us o).trans (ih _)

theorem urlsSeen_append_one (refs : List (Str × (Str × Str))) (done : List Str)
    (o : Str) : urlsSeen refs (done ++ [o]) = urlStep refs (urlsSeen refs done) o := by
  unfold urlsSeen
  rw [List.foldl_append]
  rfl

theorem natToStr_not_mem_range' (n : Nat) :
    natToStr (n + 1) ∉ (List.range' 1 n).map natToStr := by
  intro h
  rcases List.mem_map.mp h with ⟨m, hm, he⟩
  have h2 := natToStr_inj he
  rcases List.mem_range'.mp hm with ⟨i, hi, rfl⟩
  omega

theorem assignInv_step (refs : List (Str × (Str × Str))) (done : List Str)
    (st : AssignState) (o : Str) (h : AssignInv refs done st) :
    AssignInv refs (done ++ [o]) (assignStep refs st o) := by
  obtain ⟨h1, h2, h3, h4, h5⟩ := h
  cases href : dictGet refs o with
  | none =>
    have hu : urlsSeen refs (done ++ [o]) = urlsSeen refs done := by
      rw [urlsSeen_append_one, urlStep_none href]
    have hst : assignStep refs st o = st := by
      simp only [assignStep, href]
    rw [hst]
    refine ⟨by rw [hu]; exact h1, by rw [hu]; exact h2, by rw [hu]; exact h3, ?_, ?_⟩
    · intro o' tv' ho' htv'
      rcases List.mem_append.mp ho' with hm | hm
      · exact h4 o' tv' hm htv'
      · simp only [List.mem_singleton] at hm
        subst hm
        rw [href] at htv'
        exact Option.noConfusion htv'
    · intro o' hs
      obtain ⟨hm, hsome⟩ := h5 o' hs
      exact ⟨List.mem_append.mpr (Or.inl hm), hsome⟩
  | some tv =>
    have hu : urlsSeen refs (done ++ [o]) = setAdd (urlsSeen refs done) tv.2 := by
      rw [urlsSeen_append_one, urlStep_some href]
    cases hc : dictGet st.urlToCanon tv.2 with
    | some canon =>
      have hmem : tv.2 ∈ urlsSeen refs done := by
        rw [h1] at hc
        exact (dictGet_enumUrls_isSome _ _).mp (by rw [hc]; rfl)
      have hst : assignStep refs st o =
          { st with oldToNew := dictSet st.oldToNew o canon } := by
        simp only [assignStep, href, hc]
      have hu2 : urlsSeen refs (done ++ [o]) = urlsSeen refs done := by
        rw [hu, setAdd_of_mem hmem]
      rw [hst]
      refine ⟨by rw [hu2]; exact h1, by rw [hu2]; exact h2, by rw [hu2]; exact h3, ?_, ?_⟩
      · intro o' tv' ho' htv'
        by_cases heq : o' = o
        · subst heq
          rw [href] at htv'
          injection htv' with htv'
          subst htv'
          show dictGet (dictSet st.oldToNew o' canon) o' = dictGet st.urlToCanon tv.2
          rw [dictGet_dictSet_self, hc]
        · show dictGet (dictSet st.oldToNew o canon) o' = dictGet st.urlToCanon tv'.2
          rw [dictGet_dictSet_ne _ _ _ _ heq]
          rcases List.mem_append.mp ho' with hm | hm
          · exact h4 o' tv' hm htv'
          · simp only [List.mem_singleton] at hm
            exact absurd hm heq
      · intro o' hs
        by_cases heq : o' = o
        · subst heq
          exact ⟨List.mem_append.mpr (Or.inr (by simp)), by rw [href]; rfl⟩
        · have hs2 : (dictGet (dictSet st.oldToNew o canon) o').isSome := hs
          rw [dictGet_dictSet_ne _ _ _ _ heq] at hs2
          obtain ⟨hm, hsome⟩ := h5 o' hs2
          exact ⟨List.mem_append.mpr (Or.inl hm), hsome⟩
    | none =>
      have hnotmem : tv.2 ∉ urlsSeen refs done := by
        intro hm
        have hx := (dictGet_enumUrls_isSome (urlsSeen refs done) tv.2).mpr hm
        rw [← h1, hc] at hx
        exact Bool.noConfusion hx
      have hu2 : urlsSeen refs (done ++ [o]) = urlsSeen refs done ++ [tv.2] := by
        rw [hu, setAdd_of_not_mem hnotmem]
      have hst : assignStep refs st o =
          { urlToCanon := dictSet st.urlToCanon tv.2 (natToStr st.nextNum),
            oldToNew := dictSet st.oldToNew o (natToStr st.nextNum),
            nextNum := st.nextNum + 1,
            newRefs := dictSet st.newRefs (natToStr st.nextNum) tv } := by
        simp only [assignStep, href, hc]
      have hfreshCanon : dictSet st.urlToCanon tv.2 (natToStr st.nextNum) =
          st.urlToCanon ++ [(tv.2, natToStr st.nextNum)] := dictSet_fresh _ _ _ hc
      have hfreshNew : dictGet st.newRefs (natToStr st.nextNum) = none := by
        rw [dictGet_eq_none_iff, h3, h2]
        exact natToStr_not_mem_range' _
      have hfreshNew2 : dictSet st.newRefs (natToStr st.nextNum) tv =
          st.newRefs ++ [(natToStr st.nextNum, tv)] := dictSet_fresh _ _ _ hfreshNew
      rw [hst]
      refine ⟨?_, ?_, ?_, ?_, ?_⟩
      · show dictSet st.urlToCanon tv.2 (natToStr st.nextNum) =
          enumUrls (urlsSeen refs (done ++ [o]))
        rw [hfreshCanon, h1, h2, hu2, enumUrls_append_one]
      · show st.nextNum + 1 = (urlsSeen refs (done ++ [o])).length + 1
        rw [h2, hu2]
        simp
      · show (dictSet st.newRefs (natToStr st.nextNum) tv).map Prod.fst =
          (List.range' 1 (urlsSeen refs (done ++ [o])).length).map natToStr
        rw [hfreshNew2, List.map_append, h3, hu2, h2]
        simp only [List.length_append, List.length_singleton]
        rw [List.range'_concat, List.map_append]
        congr 1
        simp [Nat.add_comm]
      · intro o' tv' ho' htv'
        by_cases heq : o' = o
        · subst heq
          rw [href] at htv'
          injection htv' with htv'
          subst htv'
          show dictGet (dictSet st.oldToNew o' (natToStr st.nextNum)) o' =
            dictGet (dictSet st.urlToCanon tv.2 (natToStr st.nextNum)) tv.2
          rw [dictGet_dictSet_self, dictGet_dictSet_self]
        · show dictGet (dictSet st.oldToNew o (natToStr st.nextNum)) o' =
            dictGet (dictSet st.urlToCanon tv.2 (natToStr st.nextNum)) tv'.2
          rw [dictGet_dictSet_ne _ _ _ _ heq]
          rcases List.mem_append.mp ho' with hm | hm
          · rw [h4 o' tv' hm htv']
            by_cases hurl : tv'.2 = tv.2
            · exfalso
              apply hnotmem
              rw [← hurl]
              exact mem_urlsSeen_of_mem hm htv'
            · rw [dictGet_dictSet_ne _ _ _ _ hurl]
          · simp only [List.mem_singleton] at hm
            exact absurd hm heq
      · intro o' hs
        by_cases heq : o' = o
        · subst heq
          exact ⟨List.mem_append.mpr (Or.inr (by simp)), by rw [href]; rfl⟩
        · have hs2 : (dictGet (dictSet st.oldToNew o (natToStr st.nextNum)) o').isSome := hs
          rw [dictGet_dictSet_ne _ _ _ _ heq] at hs2
          obtain ⟨hm, hsome⟩ := h5 o' hs2
          exact ⟨List.mem_append.mpr (Or.inl hm), hsome⟩

theorem assignInv_foldl (refs : List (Str × (Str × Str))) (rest : List Str) :
    ∀ (done : List Str) (st : AssignState), AssignInv refs done st →
      AssignInv refs (done ++ rest) (rest.foldl (assignStep refs) st) := by
  induction rest with
  | nil =>
    intro done st h
    simpa using h
  | cons o rest ih =>
    intro done st h
    rw [List.foldl_cons]
    have h2 := ih (done ++ [o]) (assignStep refs st o) (assignInv_step refs done st o h)
    rwa [List.append_assoc, List.singleton_append] at h2

theorem assignInv_init (refs : List (Str × (Str × Str))) :
    AssignInv refs [] assignInit := by
  refine ⟨rfl, rfl, rfl, ?_, ?_⟩
  · intro o tv ho
    cases ho
  · intro o hs
    exact absurd hs (by rw [show dictGet assignInit.oldToNew o = none from rfl]; simp)

theorem assignInv_all (refs : List (Str × (Str × Str))) (seen : List Str) :
    AssignInv refs seen (assignAll refs seen) := by
  have h := assignInv_foldl refs seen [] assignInit (assignInv_init refs)
  simpa [assignAll] using h

/-! ## Lemmas about `seenOrder` -/

theorem seenOrder_sound (refs : List (Str × (Str × Str))) (body : Str) :
    ∀ n ∈ seenOrder refs body, (dictGet refs n).isSome := by
  unfold seenOrder
  suffices H : ∀ (l : List Str) (acc : List Str),
      (∀ n ∈ acc, (dictGet refs n).isSome) →
      ∀ n ∈ l.foldl (fun seen n =>
        if !seen.contains n && (dictGet refs n).isSome then seen ++ [n] else seen) acc,
      (dictGet refs n).isSome by
    refine H _ [] ?_
    intro n hn
    cases hn
  intro l
  induction l with
  | nil =>
    intro acc hacc
    exact hacc
  | cons x rest ih =>
    intro acc hacc
    rw [List.foldl_cons]
    apply ih
    split
    case isTrue h =>
      intro n hn
      rcases List.mem_append.mp hn with hm | hm
      · exact hacc n hm
      · simp only [List.mem_singleton] at hm
        subst hm
        exact ((Bool.and_eq_true _ _).mp h).2
    case isFalse h => exact hacc

theorem seenOrder_nil (refs : List (Str × (Str × Str))) (body : Str)
    (h : ∀ n ∈ citMatches body, dictGet refs n = none) : seenOrder refs body = [] := by
  unfold seenOrder
  suffices H : ∀ l : List Str, (∀ n ∈ l, dictGet refs n = none) →
      l.foldl (fun seen n =>
        if !seen.contains n && (dictGet refs n).isSome then seen ++ [n] else seen) [] = []
    from H _ h
  intro l
  induction l with
  | nil => intro _; rfl
  | cons x rest ih =>
    intro hp
    have hx : (dictGet refs x).isSome = false := by
      rw [hp x (by simp)]
      rfl
    rw [List.foldl_cons]
    simp only [hx, Bool.and_false, if_false]
    exact ih (fun n hn => hp n (by simp [hn]))

/-! ## Lemmas about `subCitations` and unfoldings of the top-level functions -/

theorem except_bind_ok {α β : Type} (a : α) (f : α → Except Str β) :
    (Except.ok a >>= f : Except Str β) = f a := rfl

theorem subCitationsF_id (m : List (Str × Str))
    (h : ∀ n v, dictGet m n = some v → v = n) :
    ∀ (fuel : Nat) (l : Str), l.length < fuel → subCitationsF m fuel l = l := by
  intro fuel l
  induction fuel, l using subCitationsF.induct m with
  | case1 l =>
    intro hl
    omega
  | case2 fuel =>
    intro _
    rfl
  | case3 fuel rest hempty ih =>
    intro hl
    simp only [subCitationsF, hempty, if_true]
    rw [ih (by simp only [List.length_cons] at hl; omega)]
  | case4 fuel rest hne tail hdrop ih =>
    intro hl
    have hsplit : rest = rest.takeWhile pyDigit ++ ']' :: tail := by
      conv_lhs => rw [← List.take_append_drop (rest.takeWhile pyDigit).length rest]
      rw [hdrop]
      congr 1
      exact (List.prefix_iff_eq_take.mp (List.takeWhile_prefix _)).symm
    have htl : rest.drop ((rest.takeWhile pyDigit).length + 1) = tail := by
      have h3 := congrArg (List.drop 1) hdrop
      rw [List.drop_drop] at h3
      simp only [List.drop_one, List.tail_cons] at h3
      first
        | exact h3
        | (rw [Nat.add_comm]; exact h3)
    have hlen : (rest.drop ((rest.takeWhile pyDigit).length + 1)).length < fuel := by
      simp only [List.length_cons] at hl
      simp only [List.length_drop]
      omega
    simp only [subCitationsF, if_neg hne, hdrop]
    cases hget : dictGet m (rest.takeWhile pyDigit) with
    | some v =>
      simp only [Option.getD_some]
      rw [h _ _ hget, ih hlen, htl]
      conv_rhs => rw [hsplit]
      rw [List.cons_append]
    | none =>
      simp only [Option.getD_none]
      rw [ih hlen, htl]
      conv_rhs => rw [hsplit]
      rw [List.cons_append]
  | case5 fuel rest hne hnomatch ih =>
    intro hl
    simp only [subCitationsF, if_neg hne]
    rw [ih (by simp only [List.length_cons] at hl; omega)]
  | case6 fuel c rest hc ih =>
    intro hl
    rw [subCitationsF.eq_def]
    split
    · rename_i heq
      exact absurd heq (by simp)
    · rename_i heq1 heq
      exact absurd heq (by simp)
    · rename_i heq1 heq
      injection heq with he0 he1
      exact absurd he0 (fun hh => hc hh)
    · rename_i heq1 heq
      injection heq1 with hf
      injection heq with he0 he1
      subst hf
      subst he0
      subst he1
      rw [ih (by simp only [List.length_cons] at hl; omega)]
theorem subCitations_id (m : List (Str × Str))
    (h : ∀ n v, dictGet m n = some v → v = n) :
    ∀ l : Str, subCitations m l = l := fun l =>
  subCitationsF_id m h (l.length + 1) l (by omega)

theorem renumber_eq_of_parse (text : Str) (refs : List (Str × (Str × Str)))
    (h : parse_references text = .ok refs) (hne : refs.isEmpty = false) :
    renumber_citations text = .ok
      (rstrip (subCitations (assignAll refs (seenOrder refs (bodyOf text))).oldToNew
          (bodyOf text)) ++
        ('\n' :: '\n' :: List.intercalate ['\n']
          (refLinesOf (assignAll refs (seenOrder refs (bodyOf text))).newRefs)) ++
        '\n' :: tailOf text) := by
  unfold renumber_citations
  rw [h]
  simp only [except_bind_ok]
  rw [hne]
  rfl

theorem validate_eq_of_parse (text : Str) (refs : List (Str × (Str × Str)))
    (h : parse_references text = .ok refs) :
    validate text = .ok
      ((sortByNat ((find_inline_citations text).filter
          (fun n => !(dictGet refs n).isSome))).map orphanMsg ++
        (sortByNat ((refs.map Prod.fst).filter
          (fun n => !(find_inline_citations text).contains n))).map unusedMsg ++
        dupWarnings refs) := by
  unfold validate
  rw [h]
  rfl

/-! ## Claim C2 -/

/-- C2: for every document with at least one parsed reference entry, the
reference numbers of the rebuilt Reference Section of the renumbered
output are exactly `1..K` (no gaps) and the entries are emitted in
ascending numeric order: the emission order `sortByNat` of the new
reference keys is exactly the list `[1, ..., K]` rendered in decimal,
and the renumbered output is assembled from those reference lines. -/
theorem C2_sequential_refs (text : Str) (refs : List (Str × (Str × Str)))
    (hparse : parse_references text = .ok refs) (hne : refs.isEmpty = false) :
    sortByNat ((assignAll refs (seenOrder refs (bodyOf text))).newRefs.map Prod.fst) =
      (List.range' 1 (assignAll refs (seenOrder refs (bodyOf text))).newRefs.length).map
        natToStr
    ∧ renumber_citations text = .ok
      (rstrip (subCitations (assignAll refs (seenOrder refs (bodyOf text))).oldToNew
          (bodyOf text)) ++
        ('\n' :: '\n' :: List.intercalate ['\n']
          (refLinesOf (assignAll refs (seenOrder refs (bodyOf text))).newRefs)) ++
        '\n' :: tailOf text) := by
  obtain ⟨h1, h2, h3, h4, h5⟩ := assignInv_all refs (seenOrder refs (bodyOf text))
  have hlen : (assignAll refs (seenOrder refs (bodyOf text))).newRefs.length =
      (urlsSeen refs (seenOrder refs (bodyOf text))).length := by
    have := congrArg List.length h3
    simpa using this
  constructor
  · rw [h3, hlen]
    apply sortByNat_of_pairwise
    rw [List.pairwise_map]
    have hp : (List.range' 1 (urlsSeen refs (seenOrder refs (bodyOf text))).length).Pairwise
        (· < ·) := List.pairwise_lt_range' _ _
    refine hp.imp ?_
    intro a b hab
    rw [strToNat_natToStr, strToNat_natToStr]
    omega
  · exact renumber_eq_of_parse text refs hparse hne

/-- Witness for C2 at the end-to-end example document of the spec. -/
theorem C2_sequential_refs_witness :
    parse_references ("See [2] and [5]. ## References\n[2] Foo — https://a.com/?utm_source=z\n[5] Bar — https://b.com/").data =
      .ok [(("2").data, (("Foo").data, ("https://a.com/").data)),
           (("5").data, (("Bar").data, ("https://b.com/").data))]
    ∧ sortByNat ((assignAll
        [(("2").data, (("Foo").data, ("https://a.com/").data)),
         (("5").data, (("Bar").data, ("https://b.com/").data))]
        (seenOrder
          [(("2").data, (("Foo").data, ("https://a.com/").data)),
           (("5").data, (("Bar").data, ("https://b.com/").data))]
          (bodyOf ("See [2] and [5]. ## References\n[2] Foo — https://a.com/?utm_source=z\n[5] Bar — https://b.com/").data))).newRefs.map
          Prod.fst) =
      (List.range' 1 (assignAll
        [(("2").data, (("Foo").data, ("https://a.com/").data)),
         (("5").data, (("Bar").data, ("https://b.com/").data))]
        (seenOrder
          [(("2").data, (("Foo").data, ("https://a.com/").data)),
           (("5").data, (("Bar").data, ("https://b.com/").data))]
          (bodyOf ("See [2] and [5]. ## References\n[2] Foo — https://a.com/?utm_source=z\n[5] Bar — https://b.com/").data))).newRefs.length).map
        natToStr := by
  constructor
  · decide
  · exact (C2_sequential_refs
      ("See [2] and [5]. ## References\n[2] Foo — https://a.com/?utm_source=z\n[5] Bar — https://b.com/").data
      [(("2").data, (("Foo").data, ("https://a.com/").data)),
       (("5").data, (("Bar").data, ("https://b.com/").data))]
      (by decide) (by decide)).1

/-! ## Claim C3 -/

/-- C3: the old-to-new mapping assigns numbers in first-appearance order
of Body citations: the first element of the first-appearance list maps
to `"1"`; any two old citation numbers whose references carry equal
canonical URLs map to the same new number (no fresh number allocated for
the duplicate); and the URL-to-new-number table numbers the distinct
canonical URLs sequentially `1, 2, ...` in first-seen order. -/
theorem C3_first_appearance_mapping (text : Str) (refs : List (Str × (Str × Str)))
    (o : Str) (rest : List Str)
    (hparse : parse_references text = .ok refs)
    (hseen : seenOrder refs (bodyOf text) = o :: rest) :
    dictGet (assignAll refs (o :: rest)).oldToNew o = some (natToStr 1)
    ∧ (∀ a b ta tb, a ∈ o :: rest → b ∈ o :: rest →
        dictGet refs a = some ta → dictGet refs b = some tb → ta.2 = tb.2 →
        dictGet (assignAll refs (o :: rest)).oldToNew a =
          dictGet (assignAll refs (o :: rest)).oldToNew b)
    ∧ (assignAll refs (o :: rest)).urlToCanon = enumUrls (urlsSeen refs (o :: rest)) := by
  obtain ⟨h1, h2, h3, h4, h5⟩ := assignInv_all refs (o :: rest)
  refine ⟨?_, ?_, h1⟩
  · have ho : (dictGet refs o).isSome := by
      refine seenOrder_sound refs (bodyOf text) o ?_
      rw [hseen]
      exact List.mem_cons_self _ _
    obtain ⟨tv, htv⟩ := Option.isSome_iff_exists.mp ho
    rw [h4 o tv (List.mem_cons_self _ _) htv, h1]
    have hstep : urlsSeen refs (o :: rest) = rest.foldl (urlStep refs) [tv.2] := by
      unfold urlsSeen
      rw [List.foldl_cons]
      congr 1
      rw [urlStep_some htv]
      rfl
    obtain ⟨tl, htl⟩ := prefix_foldl_urlStep refs rest [tv.2]
    rw [hstep, ← htl]
    exact dictGet_enumUrls_head tv.2 tl
  · intro a b ta tb ha hb hta htb hurl
    rw [h4 a ta ha hta, h4 b tb hb htb, hurl]

/-- Witness for C3 at a document whose two references share one URL. -/
theorem C3_first_appearance_mapping_witness :
    seenOrder
        [(("1").data, (("A").data, ("https://u.com/").data)),
         (("2").data, (("B").data, ("https://u.com/").data))]
        (bodyOf ("See [1] and [2].\n\n## References\n[1] A — https://u.com/\n[2] B — https://u.com/\n").data) =
      ("1").data :: [("2").data]
    ∧ dictGet (assignAll
        [(("1").data, (("A").data, ("https://u.com/").data)),
         (("2").data, (("B").data, ("https://u.com/").data))]
        (("1").data :: [("2").data])).oldToNew ("1").data = some (natToStr 1)
    ∧ dictGet (assignAll
        [(("1").data, (("A").data, ("https://u.com/").data)),
         (("2").data, (("B").data, ("https://u.com/").data))]
        (("1").data :: [("2").data])).oldToNew ("1").data =
      dictGet (assignAll
        [(("1").data, (("A").data, ("https://u.com/").data)),
         (("2").data, (("B").data, ("https://u.com/").data))]
        (("1").data :: [("2").data])).oldToNew ("2").data := by
  have h := C3_first_appearance_mapping
    ("See [1] and [2].\n\n## References\n[1] A — https://u.com/\n[2] B — https://u.com/\n").data
    [(("1").data, (("A").data, ("https://u.com/").data)),
     (("2").data, (("B").data, ("https://u.com/").data))]
    ("1").data [("2").data] (by decide) (by decide)
  refine ⟨by decide, h.1, ?_⟩
  exact h.2.1 ("1").data ("2").data
    ((("A").data, ("https://u.com/").data)) ((("B").data, ("https://u.com/").data))
    (by decide) (by decide) (by decide) (by decide) (by decide)

/-! ## Claim C10 -/

/-- C10: for every document whose parsed reference set is non-empty but
in which no Body citation number matches any parsed reference,
renumbering drops every reference entry and still emits the rebuilt
document: the rstripped Body, a blank line, a References heading with
zero entry lines, and the tail. -/
theorem C10_all_dropped_empty_section (text : Str) (refs : List (Str × (Str × Str)))
    (hparse : parse_references text = .ok refs)
    (hne : refs.isEmpty = false)
    (hnone : ∀ n ∈ citMatches (bodyOf text), dictGet refs n = none) :
    renumber_citations text =
      .ok (rstrip (bodyOf text) ++ ('\n' :: '\n' :: rHeading) ++ '\n' :: tailOf text) := by
  have hseen : seenOrder refs (bodyOf text) = [] := seenOrder_nil refs _ hnone
  rw [renumber_eq_of_parse text refs hparse hne, hseen]
  have hsub : subCitations (assignAll refs []).oldToNew (bodyOf text) = bodyOf text := by
    apply subCitations_id
    intro n v hv
    rw [show (assignAll refs []).oldToNew = [] from rfl, dictGet_nil] at hv
    exact Option.noConfusion hv
  rw [hsub]
  rfl

/-- Witness for C10: a document with one (uncited) reference and one
orphan citation. -/
theorem C10_all_dropped_empty_section_witness :
    parse_references ("x [9]\n\n## References\n[1] T — https://a.com\n").data =
      .ok [(("1").data, (("T").data, ("https://a.com").data))]
    ∧ renumber_citations ("x [9]\n\n## References\n[1] T — https://a.com\n").data =
      .ok (rstrip (bodyOf ("x [9]\n\n## References\n[1] T — https://a.com\n").data) ++
        ('\n' :: '\n' :: rHeading) ++
        '\n' :: tailOf ("x [9]\n\n## References\n[1] T — https://a.com\n").data) := by
  refine ⟨by decide, ?_⟩
  exact C10_all_dropped_empty_section
    ("x [9]\n\n## References\n[1] T — https://a.com\n").data
    [(("1").data, (("T").data, ("https://a.com").data))]
    (by decide) (by decide) (by decide)

/-! ## Claim C9 -/

/-- C9 counterexample: the document `"See [1].\n[1] Foo — https://x.com\n"`
contains no references section (no `## References` heading), yet
renumbering does not return it unchanged (the reference-shaped body line
is parsed as a reference, so the no-op guard is not taken), and
validation reports no orphan at all even though `[1]` is an inline
citation.  This falsifies both halves of the claim as stated. -/
theorem C9_counterexample :
    findSub ("See [1].\n[1] Foo — https://x.com\n").data rHeading = none
    ∧ renumber_citations ("See [1].\n[1] Foo — https://x.com\n").data ≠
        .ok ("See [1].\n[1] Foo — https://x.com\n").data
    ∧ find_inline_citations ("See [1].\n[1] Foo — https://x.com\n").data = [("1").data]
    ∧ validate ("See [1].\n[1] Foo — https://x.com\n").data = .ok [] := by
  refine ⟨by decide, by decide, by decide, by decide⟩

/-- C9 as amended: for every document in which the reference parser finds
no entries (rather than: with no references section), renumbering
returns the input unchanged and validation reports exactly one orphan
warning per inline citation. -/
theorem C9_no_refs_noop (text : Str)
    (hparse : parse_references text = .ok []) :
    renumber_citations text = .ok text
    ∧ validate text = .ok ((find_inline_citations text).map orphanMsg) := by
  constructor
  · unfold renumber_citations
    rw [hparse]
    simp only [except_bind_ok]
    rfl
  · rw [validate_eq_of_parse text [] hparse]
    have h1 : (find_inline_citations text).filter
        (fun n => !(dictGet ([] : List (Str × (Str × Str))) n).isSome) =
        find_inline_citations text := by
      apply List.filter_eq_self.mpr
      intro a _
      rfl
    rw [h1]
    have h2 : sortByNat (find_inline_citations text) = find_inline_citations text := by
      unfold find_inline_citations
      exact sortByNat_idem _
    rw [h2]
    simp [dupWarnings, dupStep, sortByNat]

/-- Witness for C9 as amended: a document with citations and no
reference entries at all. -/
theorem C9_no_refs_noop_witness :
    parse_references ("Hello [3] world [7].\n").data = .ok []
    ∧ renumber_citations ("Hello [3] world [7].\n").data =
        .ok ("Hello [3] world [7].\n").data
    ∧ validate ("Hello [3] world [7].\n").data =
        .ok ((find_inline_citations ("Hello [3] world [7].\n").data).map orphanMsg) := by
  refine ⟨by decide, ?_, ?_⟩
  · exact (C9_no_refs_noop ("Hello [3] world [7].\n").data (by decide)).1
  · exact (C9_no_refs_noop ("Hello [3] world [7].\n").data (by decide)).2

/-! ## Claim C5 -/

/-- C5 counterexample: the scanner enters the inside-reference-section
state on the line `"## References and Sources"`, whose text is not
exactly `References` (the regex `^##\s+References` is a prefix match).
Consequently `[2]`, which lies under that heading, is excluded from the
citation set of the document `"[1]\n## References and Sources\n[2]\n"`. -/
theorem C5_counterexample :
    matchesHeadingRef ("## References and Sources").data = true
    ∧ ("## References and Sources").data ≠ ("## References").data
    ∧ find_inline_citations ("[1]\n## References and Sources\n[2]\n").data = [("1").data] := by
  refine ⟨by decide, by decide, by decide⟩

theorem takeWhile_eq_self_of_all {p : Char → Bool} :
    ∀ l : Str, (∀ c ∈ l, p c) → l.takeWhile p = l := by
  intro l h
  induction l with
  | nil => rfl
  | cons c rest ih =>
    rw [List.takeWhile_cons, if_pos (h c (by simp))]
    rw [ih (fun c hc => h c (by simp [hc]))]

/-- Characterization of the heading test: prefix match, not equality. -/
theorem matchesHeadingRef_iff (line : Str) :
    matchesHeadingRef line = true ↔
      ∃ ws rest, line = '#' :: '#' :: (ws ++ (("References").data ++ rest))
        ∧ ws ≠ [] ∧ ∀ c ∈ ws, pySpace c := by
  constructor
  · intro h
    rw [matchesHeadingRef.eq_def] at h
    split at h
    case _ rest0 =>
      rcases Bool.and_eq_true _ _ |>.mp h with ⟨hne, hpre⟩
      rcases List.isPrefixOf_iff_prefix.mp hpre with ⟨r2, hr2⟩
      refine ⟨rest0.takeWhile pySpace, r2, ?_, ?_, ?_⟩
      · have hd : rest0 = rest0.takeWhile pySpace ++
            rest0.drop (rest0.takeWhile pySpace).length := by
          conv_lhs => rw [← List.take_append_drop (rest0.takeWhile pySpace).length rest0]
          congr 1
          exact (List.prefix_iff_eq_take.mp (List.takeWhile_prefix _)).symm
        rw [hr2, ← hd]
      · intro hh
        rw [hh] at hne
        exact Bool.noConfusion hne
      · intro c hc
        exact List.mem_takeWhile_imp hc
    case _ => exact Bool.noConfusion h
  · rintro ⟨ws, rest, rfl, hne, hsp⟩
    show (!((ws ++ (("References").data ++ rest)).takeWhile pySpace).isEmpty &&
      ("References").data.isPrefixOf
        ((ws ++ (("References").data ++ rest)).drop
          ((ws ++ (("References").data ++ rest)).takeWhile pySpace).length)) = true
    have htw : (ws ++ (("References").data ++ rest)).takeWhile pySpace = ws := by
      rw [List.takeWhile_append]
      rw [takeWhile_eq_self_of_all ws hsp]
      rw [if_pos rfl]
      rw [show (("References").data ++ rest).takeWhile pySpace = [] from rfl]
      simp
    rw [htw]
    have hdrop : (ws ++ (("References").data ++ rest)).drop ws.length =
        ("References").data ++ rest := List.drop_left ws _
    rw [hdrop]
    rw [Bool.and_eq_true]
    constructor
    · cases ws with
      | nil => exact absurd rfl hne
      | cons a b => rfl
    · exact List.isPrefixOf_iff_prefix.mpr ⟨rest, rfl⟩

/-- The citation-collection loop gathers bracketed integers from exactly
the lines the state machine scans outside the reference section. -/
theorem citScan_linesOutside (lines : List Str) :
    ∀ (inRefs : Bool) (acc : List Str),
      (lines.foldl citScanStep (inRefs, acc)).2 =
        (((linesOutside inRefs lines).map citMatches).flatten).foldl setAdd acc := by
  induction lines with
  | nil =>
    intro inRefs acc
    rfl
  | cons line rest ih =>
    intro inRefs acc
    rw [List.foldl_cons]
    by_cases h1 : matchesHeadingRef line = true
    · have hstep : citScanStep (inRefs, acc) line = (true, acc) := by
        unfold citScanStep
        rw [if_pos h1]
      have hlo : linesOutside inRefs (line :: rest) = linesOutside true rest := by
        simp only [linesOutside]
        rw [if_pos h1]
      rw [hstep, hlo]
      exact ih true acc
    · have h1f : matchesHeadingRef line = false := Bool.eq_false_iff.mpr h1
      cases inRefs with
      | true =>
        by_cases h2 : startsHeading line = true
        · have hstep : citScanStep (true, acc) line =
              (false, (citMatches line).foldl setAdd acc) := by
            simp [citScanStep, h1f, h2]
          have hlo : linesOutside true (line :: rest) =
              line :: linesOutside false rest := by
            simp [linesOutside, h1f, h2]
          rw [hstep, hlo, List.map_cons, List.flatten_cons, List.foldl_append]
          exact ih false _
        · have h2f : startsHeading line = false := Bool.eq_false_iff.mpr h2
          have hstep : citScanStep (true, acc) line = (true, acc) := by
            simp [citScanStep, h1f, h2f]
          have hlo : linesOutside true (line :: rest) = linesOutside true rest := by
            simp [linesOutside, h1f, h2f]
          rw [hstep, hlo]
          exact ih true acc
      | false =>
        have hstep : citScanStep (false, acc) line =
            (false, (citMatches line).foldl setAdd acc) := by
          simp [citScanStep, h1f]
        have hlo : linesOutside false (line :: rest) =
            line :: linesOutside false rest := by
          simp [linesOutside, h1f]
        rw [hstep, hlo, List.map_cons, List.flatten_cons, List.foldl_append]
        exact ih false _

theorem nodup_setAdd (acc : List Str) (x : Str) (h : acc.Nodup) : (setAdd acc x).Nodup := by
  unfold setAdd
  split
  · exact h
  case isFalse hmem =>
    rw [List.nodup_append]
    refine ⟨h, List.nodup_singleton x, ?_⟩
    intro a ha hax
    simp only [List.mem_singleton] at hax
    subst hax
    exact hmem (by simpa using ha)

theorem foldl_setAdd_nodup (l : List Str) :
    ∀ acc : List Str, acc.Nodup → (l.foldl setAdd acc).Nodup := by
  induction l with
  | nil =>
    intro acc h
    exact h
  | cons x rest ih =>
    intro acc h
    rw [List.foldl_cons]
    exact ih _ (nodup_setAdd acc x h)

/-- C5 as amended: the scanner enters the inside-reference-section state
exactly on lines of the form `##`, whitespace, then the literal word
`References` as a prefix (anything may follow — not only the exact
heading); bracketed integers are collected from exactly the lines
scanned outside that section; and the result is deduplicated and sorted
ascending by integer value. -/
theorem C5_heading_and_exclusion :
    (∀ line : Str, matchesHeadingRef line = true ↔
      ∃ ws rest, line = '#' :: '#' :: (ws ++ (("References").data ++ rest))
        ∧ ws ≠ [] ∧ ∀ c ∈ ws, pySpace c)
    ∧ (∀ text : Str, find_inline_citations text =
        sortByNat ((((linesOutside false (splitOnChar '\n' text)).map
          citMatches).flatten).foldl setAdd []))
    ∧ (∀ text : Str,
        (find_inline_citations text).Pairwise (fun a b => strToNat a ≤ strToNat b)
        ∧ (find_inline_citations text).Nodup) := by
  refine ⟨matchesHeadingRef_iff, ?_, ?_⟩
  · intro text
    unfold find_inline_citations
    rw [citScan_linesOutside]
  · intro text
    constructor
    · unfold find_inline_citations
      exact sortByNat_pairwise _
    · unfold find_inline_citations
      rw [citScan_linesOutside]
      refine (sortByNat_perm _).nodup_iff.mpr ?_
      exact foldl_setAdd_nodup _ [] (by simp)

/-! ## Claim C6 -/

/-- C6 counterexample: on references `[1] A — https://e.com/x` and
`[2] B — https://e.com/x`, validation emits the duplicate-URL warning
with the later-encountered number `2` first — not, as the claim states,
the earlier-encountered number first. -/
theorem C6_counterexample :
    validate ("## References\n[1] A — https://e.com/x\n[2] B — https://e.com/x\n").data =
      .ok [unusedMsg ("1").data, unusedMsg ("2").data,
        dupMsg ("2").data ("1").data ("https://e.com/x").data]
    ∧ dupMsg ("1").data ("2").data ("https://e.com/x").data ∉
      [unusedMsg ("1").data, unusedMsg ("2").data,
        dupMsg ("2").data ("1").data ("https://e.com/x").data] := by
  refine ⟨by decide, by decide⟩

theorem dupStep_hit (st : List (Str × Str) × List Str) (item : Str × (Str × Str))
    (first : Str) (h : dictGet st.1 item.2.2 = some first) :
    dupStep st item = (st.1, st.2 ++ [dupMsg item.1 first item.2.2]) := by
  unfold dupStep
  rw [h]

theorem dupStep_fresh (st : List (Str × Str) × List Str) (item : Str × (Str × Str))
    (h : dictGet st.1 item.2.2 = none) :
    dupStep st item = (dictSet st.1 item.2.2 item.1, st.2) := by
  unfold dupStep
  rw [h]

theorem dupStep_hit_fst (st : List (Str × Str) × List Str) (item : Str × (Str × Str))
    (first : Str) (h : dictGet st.1 item.2.2 = some first) :
    (dupStep st item).1 = st.1 := by
  rw [dupStep_hit st item first h]

theorem dupStep_fresh_fst (st : List (Str × Str) × List Str) (item : Str × (Str × Str))
    (h : dictGet st.1 item.2.2 = none) :
    (dupStep st item).1 = dictSet st.1 item.2.2 item.1 := by
  rw [dupStep_fresh st item h]

theorem foldl_dupStep_ws_mono (refs : List (Str × (Str × Str))) :
    ∀ st : List (Str × Str) × List Str, ∃ ext, (refs.foldl dupStep st).2 = st.2 ++ ext := by
  induction refs with
  | nil =>
    intro st
    exact ⟨[], by simp⟩
  | cons item rest ih =>
    intro st
    rw [List.foldl_cons]
    obtain ⟨ext, hext⟩ := ih (dupStep st item)
    cases hget : dictGet st.1 item.2.2 with
    | some first =>
      refine ⟨dupMsg item.1 first item.2.2 :: ext, ?_⟩
      rw [hext, dupStep_hit st item first hget]
      simp
    | none =>
      refine ⟨ext, ?_⟩
      rw [hext, dupStep_fresh st item hget]

theorem foldl_dupStep_urls (refs : List (Str × (Str × Str))) :
    ∀ (st : List (Str × Str) × List Str) (u : Str),
      dictGet (refs.foldl dupStep st).1 u =
        match dictGet st.1 u with
        | some x => some x
        | none => (refs.find? (fun q => q.2.2 == u)).map Prod.fst := by
  induction refs with
  | nil =>
    intro st u
    cases hd : dictGet st.1 u <;> simp [hd]
  | cons item rest ih =>
    intro st u
    rw [List.foldl_cons, ih]
    by_cases hu : item.2.2 = u
    · subst hu
      cases hget : dictGet st.1 item.2.2 with
      | some first =>
        rw [dupStep_hit_fst st item first hget, hget]
      | none =>
        have hfind2 : (item :: rest).find? (fun q => q.2.2 == item.2.2) = some item := by
          rw [List.find?_cons_of_pos]
          simp
        rw [dupStep_fresh_fst st item hget, dictGet_dictSet_self, hfind2]
        rfl
    · have hfind2 : (item :: rest).find? (fun q => q.2.2 == u) =
          rest.find? (fun q => q.2.2 == u) := by
        rw [List.find?_cons_of_neg]
        simp [hu]
      cases hget : dictGet st.1 item.2.2 with
      | some first =>
        rw [dupStep_hit_fst st item first hget, hfind2]
      | none =>
        rw [dupStep_fresh_fst st item hget,
          dictGet_dictSet_ne _ _ _ _ (fun hh => hu hh.symm), hfind2]

/-- C6 as amended: one duplicate-URL warning is emitted per later
collision with the first entry carrying that URL, and the message names
the later-encountered number first and the earlier-encountered number
second (the reverse of the claimed order). -/
theorem C6_dup_message_order (text : Str) (pre post : List (Str × (Str × Str)))
    (b : Str) (tb : Str × Str) (p : Str × (Str × Str)) (ws : List Str)
    (hparse : parse_references text = .ok (pre ++ (b, tb) :: post))
    (hfind : pre.find? (fun q => q.2.2 == tb.2) = some p)
    (hval : validate text = .ok ws) :
    dupMsg b p.1 tb.2 ∈ ws := by
  rw [validate_eq_of_parse text _ hparse] at hval
  injection hval with hval
  subst hval
  apply List.mem_append.mpr
  right
  unfold dupWarnings
  rw [List.foldl_append, List.foldl_cons]
  have hlook : dictGet ((pre.foldl dupStep ([], [])).1) tb.2 = some p.1 := by
    rw [foldl_dupStep_urls]
    rw [show dictGet (([], []) : List (Str × Str) × List Str).1 tb.2 = none from rfl]
    rw [hfind]
    rfl
  have hstep := dupStep_hit (pre.foldl dupStep ([], [])) (b, tb) p.1 hlook
  obtain ⟨ext, hext⟩ :=
    foldl_dupStep_ws_mono post (dupStep (pre.foldl dupStep ([], [])) (b, tb))
  rw [hext, hstep]
  simp

/-- Witness for C6 as amended at the two-reference counterexample
document. -/
theorem C6_dup_message_order_witness :
    dupMsg ("2").data ("1").data ("https://e.com/x").data ∈
      [unusedMsg ("1").data, unusedMsg ("2").data,
        dupMsg ("2").data ("1").data ("https://e.com/x").data] := by
  exact C6_dup_message_order
    ("## References\n[1] A — https://e.com/x\n[2] B — https://e.com/x\n").data
    [(("1").data, (("A").data, ("https://e.com/x").data))] []
    ("2").data (("B").data, ("https://e.com/x").data)
    (("1").data, (("A").data, ("https://e.com/x").data))
    [unusedMsg ("1").data, unusedMsg ("2").data,
      dupMsg ("2").data ("1").data ("https://e.com/x").data]
    (by decide) (by decide) (by decide)

/-! ## Claim C4: pointwise rewriting of bracketed citations -/

theorem citMatchesF_cons_other (fuel : Nat) (c : Char) (rest : Str) (hc : ¬c = '[') :
    citMatchesF (fuel + 1) (c :: rest) = citMatchesF fuel rest := by
  rw [citMatchesF.eq_def]
  split
  · rename_i heq
    exact absurd heq (by simp)
  · rename_i heq1 heq
    exact absurd heq (by simp)
  · rename_i heq1 heq
    injection heq with he0 he1
    exact absurd he0 (fun hh => hc hh)
  · rename_i heq1 heq
    injection heq1 with hf
    injection heq with he0 he1
    subst hf
    subst he0
    subst he1
    rfl

theorem subCitationsF_cons_other (m : List (Str × Str)) (fuel : Nat) (c : Char)
    (rest : Str) (hc : ¬c = '[') :
    subCitationsF m (fuel + 1) (c :: rest) = c :: subCitationsF m fuel rest := by
  rw [subCitationsF.eq_def]
  split
  · rename_i heq
    exact absurd heq (by simp)
  · rename_i heq1 heq
    exact absurd heq (by simp)
  · rename_i heq1 heq
    injection heq with he0 he1
    exact absurd he0 (fun hh => hc hh)
  · rename_i heq1 heq
    injection heq1 with hf
    injection heq with he0 he1
    subst hf
    subst he0
    subst he1
    rfl

theorem citMatchesF_congr :
    ∀ (fuel : Nat) (l : Str), l.length < fuel → ∀ fuel' : Nat, l.length < fuel' →
      citMatchesF fuel l = citMatchesF fuel' l := by
  intro fuel l
  induction fuel, l using citMatchesF.induct with
  | case1 l =>
    intro h
    omega
  | case2 fuel =>
    intro _ fuel' h'
    cases fuel' with
    | zero => omega
    | succ f2 => rfl
  | case3 fuel rest hempty ih =>
    intro h fuel' h'
    cases fuel' with
    | zero => omega
    | succ f2 =>
      simp only [citMatchesF, hempty, if_true]
      exact ih (by simp only [List.length_cons] at h; omega) f2
        (by simp only [List.length_cons] at h'; omega)
  | case4 fuel rest hne tail hdrop ih =>
    intro h fuel' h'
    cases fuel' with
    | zero => omega
    | succ f2 =>
      have hlen : (rest.drop ((rest.takeWhile pyDigit).length + 1)).length < fuel := by
        simp only [List.length_cons] at h
        simp only [List.length_drop]
        omega
      have hlen2 : (rest.drop ((rest.takeWhile pyDigit).length + 1)).length < f2 := by
        simp only [List.length_cons] at h'
        simp only [List.length_drop]
        omega
      simp only [citMatchesF, if_neg hne, hdrop]
      rw [ih hlen f2 hlen2]
  | case5 fuel rest hne hnomatch ih =>
    intro h fuel' h'
    cases fuel' with
    | zero => omega
    | succ f2 =>
      simp only [citMatchesF, if_neg hne]
      exact ih (by simp only [List.length_cons] at h; omega) f2
        (by simp only [List.length_cons] at h'; omega)
  | case6 fuel c rest hc ih =>
    intro h fuel' h'
    cases fuel' with
    | zero => omega
    | succ f2 =>
      rw [citMatchesF_cons_other fuel c rest hc, citMatchesF_cons_other f2 c rest hc]
      exact ih (by simp only [List.length_cons] at h; omega) f2
        (by simp only [List.length_cons] at h'; omega)

theorem subCitationsF_congr (m : List (Str × Str)) :
    ∀ (fuel : Nat) (l : Str), l.length < fuel → ∀ fuel' : Nat, l.length < fuel' →
      subCitationsF m fuel l = subCitationsF m fuel' l := by
  intro fuel l
  induction fuel, l using subCitationsF.induct m with
  | case1 l =>
    intro h
    omega
  | case2 fuel =>
    intro _ fuel' h'
    cases fuel' with
    | zero => omega
    | succ f2 => rfl
  | case3 fuel rest hempty ih =>
    intro h fuel' h'
    cases fuel' with
    | zero => omega
    | succ f2 =>
      simp only [subCitationsF, hempty, if_true]
      rw [ih (by simp only [List.length_cons] at h; omega) f2
        (by simp only [List.length_cons] at h'; omega)]
  | case4 fuel rest hne tail hdrop ih =>
    intro h fuel' h'
    cases fuel' with
    | zero => omega
    | succ f2 =>
      have hlen : (rest.drop ((rest.takeWhile pyDigit).length + 1)).length < fuel := by
        simp only [List.length_cons] at h
        simp only [List.length_drop]
        omega
      have hlen2 : (rest.drop ((rest.takeWhile pyDigit).length + 1)).length < f2 := by
        simp only [List.length_cons] at h'
        simp only [List.length_drop]
        omega
      simp only [subCitationsF, if_neg hne, hdrop]
      rw [ih hlen f2 hlen2]
  | case5 fuel rest hne hnomatch ih =>
    intro h fuel' h'
    cases fuel' with
    | zero => omega
    | succ f2 =>
      simp only [subCitationsF, if_neg hne]
      rw [ih (by simp only [List.length_cons] at h; omega) f2
        (by simp only [List.length_cons] at h'; omega)]
  | case6 fuel c rest hc ih =>
    intro h fuel' h'
    cases fuel' with
    | zero => omega
    | succ f2 =>
      rw [subCitationsF_cons_other m fuel c rest hc, subCitationsF_cons_other m f2 c rest hc]
      rw [ih (by simp only [List.length_cons] at h; omega) f2
        (by simp only [List.length_cons] at h'; omega)]

theorem citMatchesF_bracket_nomatch (fuel : Nat) (rest : Str)
    (hne : ¬(rest.takeWhile pyDigit).isEmpty = true)
    (hnm : ∀ tail, ¬rest.drop (rest.takeWhile pyDigit).length = ']' :: tail) :
    citMatchesF (fuel + 1) ('[' :: rest) = citMatchesF fuel rest := by
  simp only [citMatchesF, if_neg hne]

theorem subCitationsF_bracket_nomatch (m : List (Str × Str)) (fuel : Nat) (rest : Str)
    (hne : ¬(rest.takeWhile pyDigit).isEmpty = true)
    (hnm : ∀ tail, ¬rest.drop (rest.takeWhile pyDigit).length = ']' :: tail) :
    subCitationsF m (fuel + 1) ('[' :: rest) = '[' :: subCitationsF m fuel rest := by
  simp only [subCitationsF, if_neg hne]

theorem citMatches_cons_other (c : Char) (rest : Str) (hc : ¬c = '[') :
    citMatches (c :: rest) = citMatches rest := by
  show citMatchesF (rest.length + 1 + 1) (c :: rest) = citMatchesF (rest.length + 1) rest
  exact citMatchesF_cons_other (rest.length + 1) c rest hc

theorem subCitations_cons_other (m : List (Str × Str)) (c : Char) (rest : Str)
    (hc : ¬c = '[') :
    subCitations m (c :: rest) = c :: subCitations m rest := by
  show subCitationsF m (rest.length + 1 + 1) (c :: rest) =
    c :: subCitationsF m (rest.length + 1) rest
  exact subCitationsF_cons_other m (rest.length + 1) c rest hc

theorem citMatches_bracket_empty (rest : Str)
    (hemp : (rest.takeWhile pyDigit).isEmpty = true) :
    citMatches ('[' :: rest) = citMatches rest := by
  show citMatchesF (rest.length + 1 + 1) ('[' :: rest) = citMatchesF (rest.length + 1) rest
  simp only [citMatchesF, hemp, if_true]

theorem subCitations_bracket_empty (m : List (Str × Str)) (rest : Str)
    (hemp : (rest.takeWhile pyDigit).isEmpty = true) :
    subCitations m ('[' :: rest) = '[' :: subCitations m rest := by
  show subCitationsF m (rest.length + 1 + 1) ('[' :: rest) =
    '[' :: subCitationsF m (rest.length + 1) rest
  simp only [subCitationsF, hemp, if_true]

theorem citMatches_bracket_nomatch (rest : Str)
    (hne : ¬(rest.takeWhile pyDigit).isEmpty = true)
    (hnm : ∀ tail, ¬rest.drop (rest.takeWhile pyDigit).length = ']' :: tail) :
    citMatches ('[' :: rest) = citMatches rest := by
  show citMatchesF (rest.length + 1 + 1) ('[' :: rest) = citMatchesF (rest.length + 1) rest
  exact citMatchesF_bracket_nomatch (rest.length + 1) rest hne hnm

theorem subCitations_bracket_nomatch (m : List (Str × Str)) (rest : Str)
    (hne : ¬(rest.takeWhile pyDigit).isEmpty = true)
    (hnm : ∀ tail, ¬rest.drop (rest.takeWhile pyDigit).length = ']' :: tail) :
    subCitations m ('[' :: rest) = '[' :: subCitations m rest := by
  show subCitationsF m (rest.length + 1 + 1) ('[' :: rest) =
    '[' :: subCitationsF m (rest.length + 1) rest
  exact subCitationsF_bracket_nomatch m (rest.length + 1) rest hne hnm

theorem citMatches_bracket_match (rest tail : Str)
    (hne : ¬(rest.takeWhile pyDigit).isEmpty = true)
    (hdrop : rest.drop (rest.takeWhile pyDigit).length = ']' :: tail) :
    citMatches ('[' :: rest) =
      rest.takeWhile pyDigit ::
        citMatches (rest.drop ((rest.takeWhile pyDigit).length + 1)) := by
  show citMatchesF (rest.length + 1 + 1) ('[' :: rest) = _
  simp only [citMatchesF, if_neg hne, hdrop]
  rw [citMatchesF_congr (rest.length + 1)
    (rest.drop ((rest.takeWhile pyDigit).length + 1))
    (by simp only [List.length_drop]; omega)
    ((rest.drop ((rest.takeWhile pyDigit).length + 1)).length + 1)
    (by omega)]
  rfl

theorem subCitations_bracket_match (m : List (Str × Str)) (rest tail : Str)
    (hne : ¬(rest.takeWhile pyDigit).isEmpty = true)
    (hdrop : rest.drop (rest.takeWhile pyDigit).length = ']' :: tail) :
    subCitations m ('[' :: rest) =
      '[' :: ((dictGet m (rest.takeWhile pyDigit)).getD (rest.takeWhile pyDigit) ++
        ']' :: subCitations m (rest.drop ((rest.takeWhile pyDigit).length + 1))) := by
  show subCitationsF m (rest.length + 1 + 1) ('[' :: rest) = _
  simp only [subCitationsF, if_neg hne, hdrop]
  rw [subCitationsF_congr m (rest.length + 1)
    (rest.drop ((rest.takeWhile pyDigit).length + 1))
    (by simp only [List.length_drop]; omega)
    ((rest.drop ((rest.takeWhile pyDigit).length + 1)).length + 1)
    (by omega)]
  rw [List.cons_append]
  rfl

theorem takeWhile_append_all {p : Char → Bool} :
    ∀ (l₁ l₂ : Str), (∀ c ∈ l₁, p c = true) →
      (l₁ ++ l₂).takeWhile p = l₁ ++ l₂.takeWhile p := by
  intro l₁
  induction l₁ with
  | nil =>
    intro l₂ _
    rfl
  | cons a l ih =>
    intro l₂ h
    have ha : p a = true := h a (List.mem_cons_self a l)
    rw [List.cons_append, List.takeWhile_cons, if_pos ha,
      ih l₂ (fun c hc => h c (List.mem_cons_of_mem a hc)), List.cons_append]

/-- Scanning skips every character other than `[` without recording
anything. -/
theorem citMatches_skip_front :
    ∀ (ds r : Str), (∀ c ∈ ds, ¬c = '[') → citMatches (ds ++ r) = citMatches r := by
  intro ds
  induction ds with
  | nil =>
    intro r _
    rfl
  | cons a l ih =>
    intro r h
    rw [List.cons_append, citMatches_cons_other a (l ++ r) (h a (List.mem_cons_self a l)),
      ih r (fun c hc => h c (List.mem_cons_of_mem a hc))]

/-- Substitution copies every character other than `[` verbatim. -/
theorem subCitations_copy_front (m : List (Str × Str)) :
    ∀ (ds r : Str), (∀ c ∈ ds, ¬c = '[') →
      subCitations m (ds ++ r) = ds ++ subCitations m r := by
  intro ds
  induction ds with
  | nil =>
    intro r _
    rfl
  | cons a l ih =>
    intro r h
    rw [List.cons_append, subCitations_cons_other m a (l ++ r) (h a (List.mem_cons_self a l)),
      ih r (fun c hc => h c (List.mem_cons_of_mem a hc)), List.cons_append]

/-- The substituted string starts with the same character as its
input. -/
theorem subCitations_head (m : List (Str × Str)) (d : Char) (r : Str) :
    ∃ t, subCitations m (d :: r) = d :: t := by
  by_cases hd : d = '['
  · subst hd
    by_cases hemp : (r.takeWhile pyDigit).isEmpty = true
    · exact ⟨subCitations m r, subCitations_bracket_empty m r hemp⟩
    · cases hdd : r.drop (r.takeWhile pyDigit).length with
      | nil =>
        refine ⟨subCitations m r, ?_⟩
        apply subCitations_bracket_nomatch m r hemp
        intro tail hcon
        rw [hdd] at hcon
        exact List.noConfusion hcon
      | cons c2 tl =>
        by_cases hc2 : c2 = ']'
        · subst hc2
          exact ⟨_, subCitations_bracket_match m r tl hemp hdd⟩
        · refine ⟨subCitations m r, ?_⟩
          apply subCitations_bracket_nomatch m r hemp
          intro tail hcon
          rw [hdd] at hcon
          injection hcon with h1 _
          exact hc2 h1
  · exact ⟨subCitations m r, subCitations_cons_other m d r hd⟩

/-- A rebuilt citation `[rep]` with a nonempty all-digit replacement is
matched again as the citation `rep`. -/
theorem citMatches_full_cit (rep Y : Str) (hrne : rep ≠ [])
    (hdig : ∀ c ∈ rep, pyDigit c = true) :
    citMatches ('[' :: (rep ++ ']' :: Y)) = rep :: citMatches Y := by
  have hrb : pyDigit ']' = false := by decide
  have htw : (rep ++ ']' :: Y).takeWhile pyDigit = rep := by
    rw [takeWhile_append_all rep (']' :: Y) hdig, List.takeWhile_cons, hrb]
    simp
  have hdrop : (rep ++ ']' :: Y).drop ((rep ++ ']' :: Y).takeWhile pyDigit).length =
      ']' :: Y := by
    rw [htw]
    exact List.drop_left rep (']' :: Y)
  have hemp : ¬((rep ++ ']' :: Y).takeWhile pyDigit).isEmpty = true := by
    rw [htw]
    cases rep with
    | nil => exact absurd rfl hrne
    | cons a l =>
      intro hcon
      exact absurd hcon (by simp)
  rw [citMatches_bracket_match (rep ++ ']' :: Y) Y hemp hdrop, htw]
  congr 1
  congr 1
  have h1 := congrArg (List.drop 1) (List.drop_left rep (']' :: Y))
  rw [List.drop_drop] at h1
  simp only [List.drop_one, List.tail_cons] at h1
  first
    | exact h1
    | (rw [Nat.add_comm]; exact h1)

/-- The citations of the substituted body are exactly the citations of
the input body rewritten pointwise through the mapping; numbers absent
from the mapping pass through verbatim.  Requires the mapping's values
to be nonempty digit strings (which the assignment loop guarantees). -/
theorem citMatches_subCitations (m : List (Str × Str))
    (hv : ∀ k v, dictGet m k = some v → v ≠ [] ∧ ∀ c ∈ v, pyDigit c = true) :
    ∀ l : Str, citMatches (subCitations m l) =
      (citMatches l).map (fun k => (dictGet m k).getD k) := by
  suffices H : ∀ (n : Nat) (l : Str), l.length ≤ n →
      citMatches (subCitations m l) = (citMatches l).map (fun k => (dictGet m k).getD k) by
    intro l
    exact H l.length l (Nat.le_refl _)
  intro n
  induction n with
  | zero =>
    intro l hl
    have h0 : l = [] := List.length_eq_zero.mp (Nat.le_zero.mp hl)
    subst h0
    rfl
  | succ n ih =>
    intro l hl
    cases l with
    | nil => rfl
    | cons c rest =>
      simp only [List.length_cons] at hl
      by_cases hc : c = '['
      · subst hc
        by_cases hemp : (rest.takeWhile pyDigit).isEmpty = true
        · rw [subCitations_bracket_empty m rest hemp, citMatches_bracket_empty rest hemp]
          cases rest with
          | nil => rfl
          | cons d r2 =>
            have hd : pyDigit d = false := by
              cases hpd : pyDigit d with
              | false => rfl
              | true =>
                rw [List.takeWhile_cons, if_pos hpd] at hemp
                exact absurd hemp (by simp)
            obtain ⟨t, ht⟩ := subCitations_head m d r2
            have hemp2 : ((d :: t).takeWhile pyDigit).isEmpty = true := by
              rw [List.takeWhile_cons]
              simp [hd]
            rw [ht, citMatches_bracket_empty (d :: t) hemp2, ← ht]
            exact ih (d :: r2) (by omega)
        · have hds_ne : rest.takeWhile pyDigit ≠ [] := by
            intro hcon
            rw [hcon] at hemp
            exact hemp rfl
          have hds_dig : ∀ c ∈ rest.takeWhile pyDigit, pyDigit c = true :=
            fun c hcm => List.mem_takeWhile_imp hcm
          have hds_nb : ∀ c ∈ rest.takeWhile pyDigit, ¬c = '[' := by
            intro c hcm hce
            subst hce
            exact absurd (hds_dig _ hcm) (by decide)
          cases hdd : rest.drop (rest.takeWhile pyDigit).length with
          | nil =>
            have hnm : ∀ tail, ¬rest.drop (rest.takeWhile pyDigit).length = ']' :: tail := by
              intro tail hcon
              rw [hdd] at hcon
              exact List.noConfusion hcon
            have hsplit : rest = rest.takeWhile pyDigit := by
              conv_lhs => rw [← List.take_append_drop (rest.takeWhile pyDigit).length rest]
              rw [hdd, List.append_nil]
              exact (List.prefix_iff_eq_take.mp (List.takeWhile_prefix _)).symm
            have hnb : ∀ c ∈ rest, ¬c = '[' := by
              intro c hcm
              rw [hsplit] at hcm
              exact hds_nb c hcm
            have hsc : subCitations m rest = rest := by
              have h2 := subCitations_copy_front m rest [] hnb
              rw [List.append_nil] at h2
              exact h2.trans (List.append_nil rest)
            have h0 : citMatches rest = [] := by
              have h2 := citMatches_skip_front rest [] hnb
              rw [List.append_nil] at h2
              exact h2
            rw [subCitations_bracket_nomatch m rest hemp hnm,
              citMatches_bracket_nomatch rest hemp hnm, hsc,
              citMatches_bracket_nomatch rest hemp hnm, h0]
            rfl
          | cons c2 tl =>
            have hsplit : rest = rest.takeWhile pyDigit ++ c2 :: tl := by
              conv_lhs => rw [← List.take_append_drop (rest.takeWhile pyDigit).length rest]
              rw [hdd]
              congr 1
              exact (List.prefix_iff_eq_take.mp (List.takeWhile_prefix _)).symm
            by_cases hc2 : c2 = ']'
            · subst hc2
              rw [subCitations_bracket_match m rest tl hemp hdd,
                citMatches_bracket_match rest tl hemp hdd]
              have hrep_ne :
                  (dictGet m (rest.takeWhile pyDigit)).getD (rest.takeWhile pyDigit) ≠ [] := by
                cases hg : dictGet m (rest.takeWhile pyDigit) with
                | none =>
                  simp only [Option.getD_none]
                  exact hds_ne
                | some v =>
                  simp only [Option.getD_some]
                  exact (hv _ v hg).1
              have hrep_dig : ∀ c ∈ (dictGet m (rest.takeWhile pyDigit)).getD
                  (rest.takeWhile pyDigit), pyDigit c = true := by
                cases hg : dictGet m (rest.takeWhile pyDigit) with
                | none =>
                  simp only [Option.getD_none]
                  exact hds_dig
                | some v =>
                  simp only [Option.getD_some]
                  exact (hv _ v hg).2
              rw [citMatches_full_cit _ _ hrep_ne hrep_dig, List.map_cons]
              congr 1
              exact ih (rest.drop ((rest.takeWhile pyDigit).length + 1))
                (by simp only [List.length_drop]; omega)
            · have hnm : ∀ tail, ¬rest.drop (rest.takeWhile pyDigit).length = ']' :: tail := by
                intro tail hcon
                rw [hdd] at hcon
                injection hcon with h1 _
                exact hc2 h1
              have hc2d : pyDigit c2 = false := by
                cases hpd : pyDigit c2 with
                | false => rfl
                | true =>
                  have h1 : rest.takeWhile pyDigit =
                      rest.takeWhile pyDigit ++ (c2 :: tl).takeWhile pyDigit := by
                    conv_lhs => rw [hsplit]
                    exact takeWhile_append_all _ (c2 :: tl) hds_dig
                  have h2 := congrArg List.length h1
                  rw [List.length_append, List.takeWhile_cons, if_pos hpd] at h2
                  simp only [List.length_cons] at h2
                  omega
              rw [subCitations_bracket_nomatch m rest hemp hnm,
                citMatches_bracket_nomatch rest hemp hnm]
              have hX : subCitations m rest =
                  rest.takeWhile pyDigit ++ subCitations m (c2 :: tl) := by
                conv_lhs => rw [hsplit]
                exact subCitations_copy_front m _ _ hds_nb
              obtain ⟨t, ht⟩ := subCitations_head m c2 tl
              have htw2 : ((rest.takeWhile pyDigit ++ c2 :: t).takeWhile pyDigit) =
                  rest.takeWhile pyDigit := by
                rw [takeWhile_append_all _ (c2 :: t) hds_dig, List.takeWhile_cons, hc2d]
                simp
              have hemp2 : ¬((rest.takeWhile pyDigit ++ c2 :: t).takeWhile pyDigit).isEmpty
                  = true := by
                rw [htw2]
                intro hcon
                apply hds_ne
                cases hq : rest.takeWhile pyDigit with
                | nil => rfl
                | cons a l =>
                  rw [hq] at hcon
                  exact absurd hcon (by simp)
              have hnm2 : ∀ tail, ¬(rest.takeWhile pyDigit ++ c2 :: t).drop
                  ((rest.takeWhile pyDigit ++ c2 :: t).takeWhile pyDigit).length =
                  ']' :: tail := by
                intro tail hcon
                rw [htw2, List.drop_left] at hcon
                injection hcon with h1 _
                exact hc2 h1
              rw [hX, ht, citMatches_bracket_nomatch _ hemp2 hnm2,
                citMatches_skip_front _ (c2 :: t) hds_nb, ← ht]
              have hlen2 : (c2 :: tl).length ≤ n := by
                have h2 := congrArg List.length hsplit
                rw [List.length_append] at h2
                omega
              rw [ih (c2 :: tl) hlen2]
              conv_rhs => rw [hsplit]
              rw [citMatches_skip_front _ (c2 :: tl) hds_nb]
      · rw [subCitations_cons_other m c rest hc,
          citMatches_cons_other c (subCitations m rest) hc,
          citMatches_cons_other c rest hc]
        exact ih rest (by omega)

theorem dictGet_mem {α : Type} {m : List (Str × α)} {k : Str} {v : α}
    (h : dictGet m k = some v) : (k, v) ∈ m := by
  cases hf : m.find? (fun p => p.1 == k) with
  | none =>
    rw [dictGet, hf] at h
    exact Option.noConfusion h
  | some p =>
    have hp := List.mem_of_find?_eq_some hf
    have hk : p.1 = k := by
      have hb := List.find?_some hf
      exact eq_of_beq hb
    have hv2 : p.2 = v := by
      rw [dictGet, hf] at h
      injection h with h2
    have he : p = (k, v) := Prod.ext hk hv2
    rw [← he]
    exact hp

theorem enumUrls_value {us : List Str} {u v : Str} (h : (u, v) ∈ enumUrls us) :
    ∃ i, v = natToStr (i + 1) := by
  unfold enumUrls at h
  obtain ⟨p, hp, hpe⟩ := List.mem_map.mp h
  refine ⟨p.1, ?_⟩
  exact (congrArg Prod.snd hpe).symm

/-- Every value of the old-to-new table is a rendered positive number,
hence a nonempty digit string. -/
theorem oldToNew_value_digits (refs : List (Str × (Str × Str))) (seen : List Str)
    (k v : Str) (h : dictGet (assignAll refs seen).oldToNew k = some v) :
    v ≠ [] ∧ ∀ c ∈ v, pyDigit c = true := by
  obtain ⟨h1, h2, h3, h4, h5⟩ := assignInv_all refs seen
  obtain ⟨hk, hrefs⟩ := h5 k (by rw [h]; rfl)
  cases hg : dictGet refs k with
  | none =>
    rw [hg] at hrefs
    exact absurd hrefs (by decide)
  | some tv =>
    have h4' := h4 k tv hk hg
    rw [h, h1] at h4'
    obtain ⟨i, hi⟩ := enumUrls_value (dictGet_mem h4'.symm)
    subst hi
    exact ⟨natToStr_ne_nil _, fun c hc => natToStr_digits _ c hc⟩

/-- An inline citation with no matching reference produces an orphan
message in the validation report. -/
theorem orphan_in_validate (text : Str) (refs : List (Str × (Str × Str))) (n : Str)
    (h : parse_references text = .ok refs)
    (hn : n ∈ find_inline_citations text)
    (ho : dictGet refs n = none) :
    ∃ w, validate text = .ok w ∧ orphanMsg n ∈ w := by
  refine ⟨_, validate_eq_of_parse text refs h, ?_⟩
  apply List.mem_append.mpr
  left
  apply List.mem_append.mpr
  left
  apply List.mem_map_of_mem
  rw [mem_sortByNat]
  apply List.mem_filter.mpr
  refine ⟨hn, ?_⟩
  rw [ho]
  rfl

/-- C4 (amended): an inline citation number with no matching parsed
reference is reported as an orphan by validation on the original
document; the assignment loop gives it no new number; and the citations
of the substituted body are those of the input body rewritten pointwise
through the old-to-new table, so every unmapped number — in particular
the orphan — passes through verbatim at each occurrence.  (The second
half of the original claim is false: after renumbering the orphan can
collide with a freshly assigned number and escape detection, see the
counterexample.) -/
theorem C4_orphan_passthrough (text : Str) (refs : List (Str × (Str × Str))) (n : Str)
    (h : parse_references text = .ok refs)
    (hn : n ∈ find_inline_citations text)
    (ho : dictGet refs n = none) :
    (∃ w, validate text = .ok w ∧ orphanMsg n ∈ w) ∧
    dictGet (assignAll refs (seenOrder refs (bodyOf text))).oldToNew n = none ∧
    citMatches (subCitations (assignAll refs (seenOrder refs (bodyOf text))).oldToNew
        (bodyOf text)) =
      (citMatches (bodyOf text)).map (fun k =>
        (dictGet (assignAll refs (seenOrder refs (bodyOf text))).oldToNew k).getD k) := by
  refine ⟨orphan_in_validate text refs n h hn ho, ?_, ?_⟩
  · obtain ⟨h1, h2, h3, h4, h5⟩ := assignInv_all refs (seenOrder refs (bodyOf text))
    cases hg : dictGet (assignAll refs (seenOrder refs (bodyOf text))).oldToNew n with
    | none => rfl
    | some v =>
      have hr := (h5 n (by rw [hg]; rfl)).2
      rw [ho] at hr
      exact absurd hr (by decide)
  · exact citMatches_subCitations _ (fun k v hkv =>
      oldToNew_value_digits refs (seenOrder refs (bodyOf text)) k v hkv) (bodyOf text)

/-- C4 counterexample to the original claim: in the document below the
inline citation `[2]` has no matching reference (the references are
numbered 10, 20, 30), validation on the original reports it as an
orphan, renumbering leaves it verbatim — but renumbering assigns the
fresh number 2 to reference 20, so on the renumbered output the
leftover `[2]` collides with a real reference and validation reports
nothing: the "reported as an orphan after renumbering" half of the
claim is false. -/
theorem C4_counterexample :
    ("2").data ∈ find_inline_citations
      ("[2] [10] [20] [30]\n\n## References\n[10] A — https://a.com\n[20] B — https://b.com\n[30] C — https://c.com\n").data
    ∧ parse_references
      ("[2] [10] [20] [30]\n\n## References\n[10] A — https://a.com\n[20] B — https://b.com\n[30] C — https://c.com\n").data =
      .ok [(("10").data, (("A").data, ("https://a.com").data)),
           (("20").data, (("B").data, ("https://b.com").data)),
           (("30").data, (("C").data, ("https://c.com").data))]
    ∧ dictGet [(("10").data, (("A").data, ("https://a.com").data)),
           (("20").data, (("B").data, ("https://b.com").data)),
           (("30").data, (("C").data, ("https://c.com").data))] ("2").data = none
    ∧ validate
      ("[2] [10] [20] [30]\n\n## References\n[10] A — https://a.com\n[20] B — https://b.com\n[30] C — https://c.com\n").data =
      .ok [orphanMsg ("2").data]
    ∧ renumber_citations
      ("[2] [10] [20] [30]\n\n## References\n[10] A — https://a.com\n[20] B — https://b.com\n[30] C — https://c.com\n").data =
      .ok ("[2] [1] [2] [3]\n\n## References\n[1] A — https://a.com\n[2] B — https://b.com\n[3] C — https://c.com\n").data
    ∧ validate
      ("[2] [1] [2] [3]\n\n## References\n[1] A — https://a.com\n[2] B — https://b.com\n[3] C — https://c.com\n").data =
      .ok [] := by
  refine ⟨by decide, by decide, by decide, by decide, by decide, by decide⟩

/-- Witness for C4 at the counterexample document: the orphan `[2]`. -/
theorem C4_orphan_passthrough_witness :
    (∃ w, validate
      ("[2] [10] [20] [30]\n\n## References\n[10] A — https://a.com\n[20] B — https://b.com\n[30] C — https://c.com\n").data =
      .ok w ∧ orphanMsg ("2").data ∈ w) ∧
    dictGet (assignAll
      [(("10").data, (("A").data, ("https://a.com").data)),
       (("20").data, (("B").data, ("https://b.com").data)),
       (("30").data, (("C").data, ("https://c.com").data))]
      (seenOrder
        [(("10").data, (("A").data, ("https://a.com").data)),
         (("20").data, (("B").data, ("https://b.com").data)),
         (("30").data, (("C").data, ("https://c.com").data))]
        (bodyOf ("[2] [10] [20] [30]\n\n## References\n[10] A — https://a.com\n[20] B — https://b.com\n[30] C — https://c.com\n").data))).oldToNew
      ("2").data = none ∧
    citMatches (subCitations (assignAll
      [(("10").data, (("A").data, ("https://a.com").data)),
       (("20").data, (("B").data, ("https://b.com").data)),
       (("30").data, (("C").data, ("https://c.com").data))]
      (seenOrder
        [(("10").data, (("A").data, ("https://a.com").data)),
         (("20").data, (("B").data, ("https://b.com").data)),
         (("30").data, (("C").data, ("https://c.com").data))]
        (bodyOf ("[2] [10] [20] [30]\n\n## References\n[10] A — https://a.com\n[20] B — https://b.com\n[30] C — https://c.com\n").data))).oldToNew
      (bodyOf ("[2] [10] [20] [30]\n\n## References\n[10] A — https://a.com\n[20] B — https://b.com\n[30] C — https://c.com\n").data)) =
      (citMatches (bodyOf ("[2] [10] [20] [30]\n\n## References\n[10] A — https://a.com\n[20] B — https://b.com\n[30] C — https://c.com\n").data)).map
        (fun k => (dictGet (assignAll
          [(("10").data, (("A").data, ("https://a.com").data)),
           (("20").data, (("B").data, ("https://b.com").data)),
           (("30").data, (("C").data, ("https://c.com").data))]
          (seenOrder
            [(("10").data, (("A").data, ("https://a.com").data)),
             (("20").data, (("B").data, ("https://b.com").data)),
             (("30").data, (("C").data, ("https://c.com").data))]
            (bodyOf ("[2] [10] [20] [30]\n\n## References\n[10] A — https://a.com\n[20] B — https://b.com\n[30] C — https://c.com\n").data))).oldToNew
          k).getD k) :=
  C4_orphan_passthrough
    ("[2] [10] [20] [30]\n\n## References\n[10] A — https://a.com\n[20] B — https://b.com\n[30] C — https://c.com\n").data
    [(("10").data, (("A").data, ("https://a.com").data)),
     (("20").data, (("B").data, ("https://b.com").data)),
     (("30").data, (("C").data, ("https://c.com").data))]
    ("2").data (by decide) (by decide) (by decide)

/-! ## Claim C8: totality and the reachable error branch -/

theorem urlparse_ok_of_balanced (url : Str) (h : badBrackets (netlocOf url) = false) :
    ∃ p, urlparse url = .ok p := by
  cases he : urlparse url with
  | ok p => exact ⟨p, rfl⟩
  | error e =>
    exfalso
    simp only [urlparse] at he
    rw [show badBrackets (netlocSplit (splitScheme (sanitizeUrl url)).2).1 = false
      from h] at he
    simp at he

theorem urlparse_error_of_unbalanced (url : Str)
    (h : badBrackets (netlocOf url) = true) :
    urlparse url = .error ("Invalid IPv6 URL").data := by
  simp only [urlparse]
  have hX : badBrackets (netlocSplit (splitScheme (sanitizeUrl url)).2).1 = true := h
  rw [hX]
  simp

theorem strip_ok_of_balanced (url : Str) (h : badBrackets (netlocOf url) = false) :
    ∃ s, strip_tracking_params url = .ok s := by
  obtain ⟨p, hp⟩ := urlparse_ok_of_balanced url h
  refine ⟨urlunparse { p with query := urlencode ((parse_qs p.query).filter
    (fun q => !(TRACKING_PARAMS.contains (q.1.map lowerAscii)))) }, ?_⟩
  unfold strip_tracking_params
  rw [hp]
  rfl

theorem strip_error_of_unbalanced (url : Str)
    (h : badBrackets (netlocOf url) = true) :
    strip_tracking_params url = .error ("Invalid IPv6 URL").data := by
  unfold strip_tracking_params
  rw [urlparse_error_of_unbalanced url h]
  rfl

theorem parse_references_ok_of_balanced (text : Str)
    (h : ∀ m ∈ scanRefs text true, badBrackets (netlocOf (stripWs m.2.2)) = false) :
    ∃ refs, parse_references text = .ok refs := by
  unfold parse_references
  suffices H : ∀ (l : List (Str × Str × Str)),
      (∀ m ∈ l, badBrackets (netlocOf (stripWs m.2.2)) = false) →
      ∀ acc : List (Str × (Str × Str)), ∃ refs, l.foldlM (fun refs m => do
        let su ← strip_tracking_params (stripWs m.2.2)
        pure (dictSet refs m.1 (stripWs m.2.1, su))) acc = .ok refs by
    exact H (scanRefs text true) h []
  intro l
  induction l with
  | nil =>
    intro _ acc
    exact ⟨acc, rfl⟩
  | cons m rest ih =>
    intro hl acc
    obtain ⟨su, hsu⟩ := strip_ok_of_balanced (stripWs m.2.2) (hl m (List.mem_cons_self _ _))
    obtain ⟨refs, hr⟩ := ih (fun m2 hm2 => hl m2 (List.mem_cons_of_mem m hm2))
      (dictSet acc m.1 (stripWs m.2.1, su))
    refine ⟨refs, ?_⟩
    rw [List.foldlM_cons]
    simp only [hsu]
    exact hr

theorem renumber_ok_of_parse (text : Str) (refs : List (Str × (Str × Str)))
    (h : parse_references text = .ok refs) :
    ∃ out, renumber_citations text = .ok out := by
  cases hne : refs.isEmpty with
  | true =>
    refine ⟨text, ?_⟩
    unfold renumber_citations
    rw [h]
    simp only [except_bind_ok]
    rw [hne]
    rfl
  | false =>
    exact ⟨_, renumber_eq_of_parse text refs h hne⟩

theorem badBrackets_of_plain (netloc : Str) (h : plainNetloc netloc = true) :
    badBrackets netloc = false := by
  unfold plainNetloc at h
  simp only [Bool.and_eq_true, Bool.not_eq_true'] at h
  unfold badBrackets
  rw [h.1.2, h.2]
  rfl

/-- C8 (amended): the canonicalizer returns a value on every URL whose
extracted netloc is plain (all-ASCII, bracket-free) — the condition
under which none of `urlsplit`'s netloc validations can fire in any
CPython version, so CPython and the model agree; on a document whose
scanned reference URLs all satisfy that condition, reference parsing,
validation and renumbering all return a value.  (The unconditional
claim is false: the `Invalid IPv6 URL` error branch is reachable and
propagates uncaught, see the counterexample; non-ASCII or bracketed
netlocs can additionally raise in CPython through the `_checknetloc`
NFKC check and the 3.11+ bracketed-host check, error paths outside
this model.) -/
theorem C8_totality (url text : Str)
    (hu : plainNetloc (netlocOf url) = true)
    (ht : ∀ m ∈ scanRefs text true, plainNetloc (netlocOf (stripWs m.2.2)) = true) :
    (∃ s, strip_tracking_params url = .ok s) ∧
    (∃ refs, parse_references text = .ok refs) ∧
    (∃ w, validate text = .ok w) ∧
    (∃ out, renumber_citations text = .ok out) := by
  have hu2 : badBrackets (netlocOf url) = false := badBrackets_of_plain _ hu
  have ht2 : ∀ m ∈ scanRefs text true, badBrackets (netlocOf (stripWs m.2.2)) = false :=
    fun m hm => badBrackets_of_plain _ (ht m hm)
  obtain ⟨refs, hrefs⟩ := parse_references_ok_of_balanced text ht2
  exact ⟨strip_ok_of_balanced url hu2, ⟨refs, hrefs⟩,
    ⟨_, validate_eq_of_parse text refs hrefs⟩, renumber_ok_of_parse text refs hrefs⟩

/-- C8 counterexample: CPython's `urlsplit` raises
`ValueError("Invalid IPv6 URL")` on a netloc with an unbalanced square
bracket, so the canonicalizer is not total: it errors on `http://[`,
and a document whose reference line carries such a URL makes reference
parsing, validation and renumbering all error as well. -/
theorem C8_counterexample :
    strip_tracking_params ("http://[").data = .error ("Invalid IPv6 URL").data
    ∧ parse_references ("[1] X — http://[x\n").data = .error ("Invalid IPv6 URL").data
    ∧ validate ("[1] X — http://[x\n").data = .error ("Invalid IPv6 URL").data
    ∧ renumber_citations ("[1] X — http://[x\n").data =
        .error ("Invalid IPv6 URL").data := by
  refine ⟨by decide, by decide, by decide, by decide⟩

/-- Witness for C8 at a well-formed URL and document. -/
theorem C8_totality_witness :
    ((∃ s, strip_tracking_params ("https://a.com/?utm_source=z&x=1").data = .ok s) ∧
    (∃ refs, parse_references
      ("See [1].\n\n## References\n[1] A — https://a.com/\n").data = .ok refs) ∧
    (∃ w, validate ("See [1].\n\n## References\n[1] A — https://a.com/\n").data = .ok w) ∧
    (∃ out, renumber_citations
      ("See [1].\n\n## References\n[1] A — https://a.com/\n").data = .ok out)) :=
  C8_totality ("https://a.com/?utm_source=z&x=1").data
    ("See [1].\n\n## References\n[1] A — https://a.com/\n").data
    (by decide) (by decide)

/-! ## Claim C7: query canonicalization -/

theorem splitOnChar_ne_nil (sep : Char) : ∀ l : Str, splitOnChar sep l ≠ [] := by
  intro l
  induction l with
  | nil => exact fun h => List.noConfusion h
  | cons c rest ih =>
    simp only [splitOnChar]
    cases hs : splitOnChar sep rest with
    | nil => exact fun h => List.noConfusion h
    | cons l2 ls =>
      by_cases hc : (c == sep) = true
      · simp [hc]
      · simp [hc]

theorem splitOnChar_no_sep (sep : Char) : ∀ p : Str, (∀ c ∈ p, ¬c = sep) →
    splitOnChar sep p = [p] := by
  intro p
  induction p with
  | nil =>
    intro _
    rfl
  | cons c rest ih =>
    intro h
    have hc : (c == sep) = false :=
      beq_eq_false_iff_ne.mpr (h c (List.mem_cons_self _ _))
    simp only [splitOnChar]
    rw [ih (fun c2 h2 => h c2 (List.mem_cons_of_mem _ h2))]
    simp [hc]

theorem splitOnChar_append_piece (sep : Char) :
    ∀ (piece t : Str), (∀ c ∈ piece, ¬c = sep) →
      splitOnChar sep (piece ++ sep :: t) = piece :: splitOnChar sep t := by
  intro piece
  induction piece with
  | nil =>
    intro t _
    simp only [List.nil_append, splitOnChar]
    cases hs : splitOnChar sep t with
    | nil => exact absurd hs (splitOnChar_ne_nil sep t)
    | cons l ls => simp
  | cons c p2 ih =>
    intro t h
    have hc : (c == sep) = false :=
      beq_eq_false_iff_ne.mpr (h c (List.mem_cons_self _ _))
    simp only [List.cons_append, splitOnChar, List.append_eq]
    rw [ih t (fun c2 h2 => h c2 (List.mem_cons_of_mem _ h2))]
    simp [hc]

theorem intercalate_cons2 (sep : Char) (p q : Str) (rest : List Str) :
    List.intercalate [sep] (p :: q :: rest) =
      p ++ sep :: List.intercalate [sep] (q :: rest) := by
  simp [List.intercalate, List.intersperse_cons_cons]

theorem intercalate_single (sep : Char) (p : Str) : List.intercalate [sep] [p] = p := by
  simp [List.intercalate]

theorem splitOnChar_intercalate (sep : Char) : ∀ ps : List Str, ps ≠ [] →
    (∀ p ∈ ps, ∀ c ∈ p, ¬c = sep) →
    splitOnChar sep (List.intercalate [sep] ps) = ps := by
  intro ps
  induction ps with
  | nil =>
    intro h
    exact absurd rfl h
  | cons p rest ih =>
    intro _ hs
    cases rest with
    | nil =>
      rw [intercalate_single]
      exact splitOnChar_no_sep sep p (hs p (List.mem_cons_self _ _))
    | cons q rest2 =>
      rw [intercalate_cons2, splitOnChar_append_piece sep p _ (hs p (List.mem_cons_self _ _)),
        ih (fun h2 => List.noConfusion h2) (fun p2 h2 c hc => hs p2 (List.mem_cons_of_mem _ h2) c hc)]

theorem findIdx_serialized : ∀ name : Str, (∀ c ∈ name, ¬c = '=') → ∀ (v : Str) (i : Nat),
    List.findIdx? (fun c => c == '=') (name ++ '=' :: v) i = some (name.length + i) := by
  intro name
  induction name with
  | nil =>
    intro _ v i
    rw [List.nil_append, List.findIdx?_cons]
    simp
  | cons c n2 ih =>
    intro h v i
    rw [List.cons_append, List.findIdx?_cons]
    have hc : (c == '=') = false :=
      beq_eq_false_iff_ne.mpr (h c (List.mem_cons_self _ _))
    rw [hc]
    simp only [Bool.false_eq_true, if_false]
    rw [ih (fun c2 h2 => h c2 (List.mem_cons_of_mem _ h2)) v (i + 1)]
    congr 1
    simp only [List.length_cons]
    omega

theorem quoteChars_id : ∀ s : Str, (∀ c ∈ s, alwaysSafeChar c = true) →
    quoteChars [] s = s := by
  intro s
  induction s with
  | nil =>
    intro _
    rfl
  | cons c rest ih =>
    intro h
    have hstep : quoteChars [] (c :: rest) =
        (if alwaysSafeChar c || ([] : Str).contains c then [c]
         else ((utf8Bytes c).map pctEncodeByte).flatten) ++ quoteChars [] rest := rfl
    rw [hstep, ih (fun c2 h2 => h c2 (List.mem_cons_of_mem _ h2))]
    simp [h c (List.mem_cons_self _ _)]

theorem quote_plus_id (s : Str) (h : ∀ c ∈ s, alwaysSafeChar c = true) :
    quote_plus s = s := by
  have hsp : s.contains ' ' = false := by
    cases hc : s.contains ' ' with
    | false => rfl
    | true =>
      have hm : (' ' : Char) ∈ s := List.elem_iff.mp hc
      exact absurd (h _ hm) (by decide)
  unfold quote_plus
  rw [hsp]
  simp only [Bool.false_eq_true, if_false]
  exact quoteChars_id s h

theorem pctTokens_no_pct : ∀ s : Str, (∀ c ∈ s, ¬c = '%') →
    pctTokens s = s.map Sum.inl := by
  intro s
  induction s with
  | nil =>
    intro _
    rfl
  | cons c rest ih =>
    intro h
    rw [pctTokens.eq_def]
    split
    · rename_i a b rest2 heq
      injection heq with h1 _
      exact absurd h1 (h c (List.mem_cons_self _ _))
    · rename_i c2 rest2 heq
      injection heq with h1 h2
      subst h1
      subst h2
      rw [List.map_cons, ih (fun c2 h2 => h c2 (List.mem_cons_of_mem _ h2))]
    · rename_i heq
      exact absurd heq (by simp)

theorem tokensDecode_inl : ∀ s : Str, tokensDecode (s.map Sum.inl) = s := by
  intro s
  induction s with
  | nil => rfl
  | cons c rest ih =>
    show tokensDecodeAux [] (Sum.inl c :: rest.map Sum.inl) = c :: rest
    simp only [tokensDecodeAux, List.reverse_nil, utf8DecodeReplace, List.nil_append]
    exact congrArg (List.cons c) ih

theorem unquote_plus_id (s : Str) (h : ∀ c ∈ s, alwaysSafeChar c = true) :
    unquote_plus s = s := by
  have hmap : s.map (fun c => if c == '+' then ' ' else c) = s := by
    have h1 : s.map (fun c => if c == '+' then ' ' else c) = s.map id :=
      List.map_congr_left (fun c hc => by
        have hcp : (c == '+') = false := beq_eq_false_iff_ne.mpr (fun he =>
          absurd (h c hc) (by rw [he]; decide))
        rw [hcp]
        simp)
    rw [h1, List.map_id]
  unfold unquote_plus
  rw [hmap]
  unfold unquote
  rw [pctTokens_no_pct s (fun c hc he => absurd (h c hc) (by rw [he]; decide))]
  exact tokensDecode_inl s

theorem dictGet_dictAppendVal_self (m : List (Str × List Str)) (k : Str) (v : Str) :
    dictGet (dictAppendVal m k v) k = some ((dictGet m k).getD [] ++ [v]) := by
  induction m with
  | nil => simp [dictAppendVal, dictGet_cons, dictGet_nil]
  | cons p rest ih =>
    by_cases hp : p.1 = k
    · have hb : (p.1 == k) = true := beq_iff_eq.mpr hp
      simp [dictAppendVal, dictGet_cons, hb, hp]
    · have hb : (p.1 == k) = false := beq_eq_false_iff_ne.mpr hp
      simp [dictAppendVal, dictGet_cons, hb, hp, ih]

theorem dictGet_dictAppendVal_ne (m : List (Str × List Str)) (k k' : Str) (v : Str)
    (h : ¬k' = k) : dictGet (dictAppendVal m k v) k' = dictGet m k' := by
  induction m with
  | nil =>
    have hkk : ¬k = k' := fun he => h he.symm
    simp [dictAppendVal, dictGet_cons, dictGet_nil, hkk]
  | cons p rest ih =>
    by_cases hp : p.1 = k
    · have hpk2 : ¬p.1 = k' := fun he => h (he.symm.trans hp)
      have hkk : ¬k = k' := fun he => h he.symm
      simp [dictAppendVal, dictGet_cons, hp, hpk2, hkk]
    · have hb : (p.1 == k) = false := beq_eq_false_iff_ne.mpr hp
      simp [dictAppendVal, hb, dictGet_cons, ih]

theorem map_fst_dictAppendVal (m : List (Str × List Str)) (k : Str) (v : Str) :
    (dictAppendVal m k v).map Prod.fst = setAdd (m.map Prod.fst) k := by
  induction m with
  | nil => rfl
  | cons p rest ih =>
    by_cases hp : p.1 = k
    · have hb : (p.1 == k) = true := beq_iff_eq.mpr hp
      have hstep : dictAppendVal (p :: rest) k v = (p.1, p.2 ++ [v]) :: rest := by
        unfold dictAppendVal
        rw [if_pos hb]
      have hm : k ∈ (p :: rest).map Prod.fst := by
        rw [List.map_cons, ← hp]
        exact List.mem_cons_self _ _
      rw [hstep, setAdd_of_mem hm]
      simp [List.map_cons]
    · have hb : (p.1 == k) = false := beq_eq_false_iff_ne.mpr hp
      have hb2 : (k == p.1) = false := beq_eq_false_iff_ne.mpr (fun he => hp he.symm)
      simp only [dictAppendVal, hb, Bool.false_eq_true, if_false, List.map_cons, ih]
      unfold setAdd
      have hcc : (p.1 :: rest.map Prod.fst).contains k = (rest.map Prod.fst).contains k := by
        simp [List.contains_cons, hb2]
      rw [hcc]
      by_cases hm : (rest.map Prod.fst).contains k = true
      · rw [if_pos hm, if_pos hm]
      · rw [if_neg hm, if_neg hm, List.cons_append]

theorem foldl_dictAppendVal_getD :
    ∀ (l : List (Str × Str)) (acc : List (Str × List Str)) (n : Str),
      (dictGet (l.foldl (fun m2 p => dictAppendVal m2 p.1 p.2) acc) n).getD [] =
        (dictGet acc n).getD [] ++ (l.filter (fun pr => pr.1 == n)).map Prod.snd := by
  intro l
  induction l with
  | nil =>
    intro acc n
    simp
  | cons p rest ih =>
    intro acc n
    rw [List.foldl_cons, ih]
    by_cases hn : p.1 = n
    · subst hn
      have hb : (p.1 == p.1) = true := beq_self_eq_true p.1
      simp [List.filter_cons, hb, dictGet_dictAppendVal_self]
    · have hb : (p.1 == n) = false := beq_eq_false_iff_ne.mpr hn
      rw [dictGet_dictAppendVal_ne acc p.1 n p.2 (fun he => hn he.symm)]
      simp [List.filter_cons, hb]

theorem foldl_dictAppendVal_fst :
    ∀ (l : List (Str × Str)) (acc : List (Str × List Str)),
      ((l.foldl (fun m2 p => dictAppendVal m2 p.1 p.2) acc).map Prod.fst) =
        l.foldl (fun ks p => setAdd ks p.1) (acc.map Prod.fst) := by
  intro l
  induction l with
  | nil =>
    intro acc
    rfl
  | cons p rest ih =>
    intro acc
    rw [List.foldl_cons, List.foldl_cons, ih, map_fst_dictAppendVal]

/-- Per-name values of the grouped query: exactly the values of that
name in the pair list, in order (multiplicity and blanks included). -/
theorem parse_qs_values (qs : Str) (n : Str) :
    (dictGet (parse_qs qs) n).getD [] =
      ((parse_qsl qs).filter (fun pr => pr.1 == n)).map Prod.snd := by
  unfold parse_qs
  rw [foldl_dictAppendVal_getD]
  simp [dictGet_nil]

/-- Group order of the grouped query: the distinct names in
first-appearance order. -/
theorem parse_qs_names (qs : Str) :
    (parse_qs qs).map Prod.fst =
      (parse_qsl qs).foldl (fun ks p => setAdd ks p.1) [] := by
  unfold parse_qs
  rw [foldl_dictAppendVal_fst]
  rfl

theorem dictGet_filter_key {α : Type} (q : Str → Bool) :
    ∀ (m : List (Str × α)) (n : Str),
      dictGet (m.filter (fun p => q p.1)) n = if q n = true then dictGet m n else none := by
  intro m
  induction m with
  | nil =>
    intro n
    cases hq : q n <;> simp [dictGet_nil]
  | cons p rest ih =>
    intro n
    by_cases hn : p.1 = n
    · subst hn
      by_cases hq : q p.1 = true
      · simp [List.filter_cons, hq, dictGet_cons]
      · simp only [Bool.not_eq_true] at hq
        simp [List.filter_cons, hq, dictGet_cons, ih]
    · by_cases hq : q p.1 = true
      · simp [List.filter_cons, hq, dictGet_cons, hn, ih]
      · simp only [Bool.not_eq_true] at hq
        simp [List.filter_cons, hq, dictGet_cons, hn, ih]

theorem map_fst_filter_key {α : Type} (q : Str → Bool) : ∀ m : List (Str × α),
    (m.filter (fun p => q p.1)).map Prod.fst = (m.map Prod.fst).filter q := by
  intro m
  induction m with
  | nil => rfl
  | cons p rest ih =>
    by_cases hq : q p.1 = true
    · simp [List.filter_cons, hq, ih]
    · simp only [Bool.not_eq_true] at hq
      simp [List.filter_cons, hq, ih]

/-- The pair list underlying a grouped query dict (groups flattened in
order). -/
def flatPairs (m : List (Str × List Str)) : List (Str × Str) :=
  (m.map (fun g => g.2.map (fun v => (g.1, v)))).flatten

theorem mem_flatPairs {m : List (Str × List Str)} {pr : Str × Str}
    (h : pr ∈ flatPairs m) : ∃ g ∈ m, g.1 = pr.1 ∧ pr.2 ∈ g.2 := by
  unfold flatPairs at h
  rw [List.mem_flatten] at h
  obtain ⟨l, hl, hpr⟩ := h
  rw [List.mem_map] at hl
  obtain ⟨g, hg, hgl⟩ := hl
  subst hgl
  rw [List.mem_map] at hpr
  obtain ⟨v, hv, hvp⟩ := hpr
  refine ⟨g, hg, congrArg Prod.fst hvp, ?_⟩
  have h2 : v = pr.2 := congrArg Prod.snd hvp
  rw [← h2]
  exact hv

theorem urlencode_eq_serialized (m : List (Str × List Str)) :
    urlencode m = List.intercalate ['&']
      ((flatPairs m).map (fun pr => quote_plus pr.1 ++ '=' :: quote_plus pr.2)) := by
  unfold urlencode
  congr 1
  induction m with
  | nil => rfl
  | cons g rest ih =>
    simp only [List.map_cons, List.flatten_cons]
    rw [ih]
    have h2 : flatPairs (g :: rest) = g.2.map (fun v => (g.1, v)) ++ flatPairs rest := by
      simp [flatPairs]
    rw [h2, List.map_append, List.map_map]
    congr 1

theorem parse_qsl_serialized (ps : List (Str × Str))
    (hsafe : ∀ pr ∈ ps, (∀ c ∈ pr.1, alwaysSafeChar c = true) ∧
      (∀ c ∈ pr.2, alwaysSafeChar c = true)) :
    parse_qsl (List.intercalate ['&'] (ps.map (fun pr => pr.1 ++ '=' :: pr.2))) = ps := by
  cases ps with
  | nil => rfl
  | cons pr0 rest =>
    have hpieces_no_sep : ∀ p ∈ (pr0 :: rest).map (fun pr => pr.1 ++ '=' :: pr.2),
        ∀ c ∈ p, ¬c = '&' := by
      intro p hp c hc
      rw [List.mem_map] at hp
      obtain ⟨pr, hpr, hpe⟩ := hp
      subst hpe
      rw [List.mem_append] at hc
      cases hc with
      | inl h1 =>
        intro he
        subst he
        exact absurd ((hsafe pr hpr).1 _ h1) (by decide)
      | inr h2 =>
        rw [List.mem_cons] at h2
        cases h2 with
        | inl he2 =>
          intro he
          subst he
          exact absurd he2 (by decide)
        | inr h3 =>
          intro he
          subst he
          exact absurd ((hsafe pr hpr).2 _ h3) (by decide)
    have hsplit : splitOnChar '&' (List.intercalate ['&']
        ((pr0 :: rest).map (fun pr => pr.1 ++ '=' :: pr.2))) =
        (pr0 :: rest).map (fun pr => pr.1 ++ '=' :: pr.2) :=
      splitOnChar_intercalate '&' _ (by simp) hpieces_no_sep
    unfold parse_qsl
    rw [hsplit]
    have hfil : ((pr0 :: rest).map (fun pr => pr.1 ++ '=' :: pr.2)).filter
        (fun p => !p.isEmpty) = (pr0 :: rest).map (fun pr => pr.1 ++ '=' :: pr.2) := by
      rw [List.filter_eq_self]
      intro a ha
      rw [List.mem_map] at ha
      obtain ⟨pr, hpr, hpe⟩ := ha
      subst hpe
      cases hq : pr.1 with
      | nil => rfl
      | cons c t => rfl
    rw [hfil, List.map_map]
    have hpt : ∀ pr ∈ pr0 :: rest,
        ((fun nv => match nv.findIdx? (fun c => c == '=') with
          | some i => (unquote_plus (nv.take i), unquote_plus (nv.drop (i + 1)))
          | none => (unquote_plus nv, ([] : Str))) ∘
            (fun pr => pr.1 ++ '=' :: pr.2)) pr = pr := by
      intro pr hpr
      have hno : ∀ c ∈ pr.1, ¬c = '=' := fun c hc he =>
        absurd ((hsafe pr hpr).1 c hc) (by rw [he]; decide)
      have hfi : (pr.1 ++ '=' :: pr.2).findIdx? (fun c => c == '=') = some pr.1.length := by
        have h0 := findIdx_serialized pr.1 hno pr.2 0
        simpa using h0
      simp only [Function.comp]
      simp only [hfi]
      rw [List.take_left]
      have hdrop : (pr.1 ++ '=' :: pr.2).drop (pr.1.length + 1) = pr.2 := by
        have h1 := congrArg (List.drop 1) (List.drop_left pr.1 ('=' :: pr.2))
        rw [List.drop_drop] at h1
        simp only [List.drop_one, List.tail_cons] at h1
        first
          | exact h1
          | (rw [Nat.add_comm]; exact h1)
      rw [hdrop, unquote_plus_id _ (hsafe pr hpr).1, unquote_plus_id _ (hsafe pr hpr).2]
    rw [List.map_congr_left hpt]
    simp

/-- Re-serializing the cleaned groups and re-parsing yields exactly the
flattened groups (order and multiplicity within the serialization
preserved), provided names and values are plain characters. -/
theorem parse_qsl_urlencode (m : List (Str × List Str))
    (hsafe : ∀ pr ∈ flatPairs m, (∀ c ∈ pr.1, alwaysSafeChar c = true) ∧
      (∀ c ∈ pr.2, alwaysSafeChar c = true)) :
    parse_qsl (urlencode m) = flatPairs m := by
  rw [urlencode_eq_serialized m]
  have hq : (flatPairs m).map (fun pr => quote_plus pr.1 ++ '=' :: quote_plus pr.2) =
      (flatPairs m).map (fun pr => pr.1 ++ '=' :: pr.2) :=
    List.map_congr_left (fun pr hpr => by
      rw [quote_plus_id pr.1 (hsafe pr hpr).1, quote_plus_id pr.2 (hsafe pr hpr).2])
  rw [hq]
  exact parse_qsl_serialized (flatPairs m) hsafe

theorem strip_eq_of_parse (url : Str) (p : UrlParts) (hp : urlparse url = .ok p) :
    strip_tracking_params url = .ok (urlunparse { p with
      query := urlencode ((parse_qs p.query).filter
        (fun g => !(TRACKING_PARAMS.contains (g.1.map lowerAscii)))) }) := by
  unfold strip_tracking_params
  rw [hp]
  rfl

/-- C7 counterexample: grouping by name reorders interleaved
parameters — the query `b=1&a=2&b=3` re-serializes as `b=1&b=3&a=2`, so
the relative order of parameters across names is not preserved; and the
scheme, a non-query component, is lowercased by parsing rather than
left unchanged. -/
theorem C7_counterexample :
    strip_tracking_params ("https://x.com/a?b=1&a=2&b=3").data =
      .ok ("https://x.com/a?b=1&b=3&a=2").data
    ∧ parse_qsl ("b=1&a=2&b=3").data =
        [(("b").data, ("1").data), (("a").data, ("2").data), (("b").data, ("3").data)]
    ∧ parse_qsl ("b=1&b=3&a=2").data =
        [(("b").data, ("1").data), (("b").data, ("3").data), (("a").data, ("2").data)]
    ∧ strip_tracking_params ("HTTP://X.com/A?b=1").data =
        .ok ("http://X.com/A?b=1").data := by
  refine ⟨by decide, by decide, by decide, by decide⟩

/-- C7 (amended): for a URL that parses, canonicalization is exactly:
group the query pairs by name (groups in first-appearance order of the
name, per-name value order, multiplicity and blank values preserved),
drop exactly the groups whose lowercased name is in the tracking
denylist, re-serialize the retained groups, and rebuild the URL from
the parsed components with only the query replaced.  For queries of
plain characters the re-serialized query re-parses to exactly the
flattened retained groups.  (The original cross-name order-preservation
claim is false — grouping reorders interleaved parameters — and parsed
non-query components are normalized, e.g. the scheme is lowercased; see
the counterexample.) -/
theorem C7_canonicalization (url : Str) (p : UrlParts)
    (hp : urlparse url = .ok p)
    (hplain : ∀ pr ∈ flatPairs ((parse_qs p.query).filter
        (fun g => !(TRACKING_PARAMS.contains (g.1.map lowerAscii)))),
      (∀ c ∈ pr.1, alwaysSafeChar c = true) ∧ (∀ c ∈ pr.2, alwaysSafeChar c = true)) :
    strip_tracking_params url = .ok (urlunparse { p with
      query := urlencode ((parse_qs p.query).filter
        (fun g => !(TRACKING_PARAMS.contains (g.1.map lowerAscii)))) })
    ∧ ((parse_qs p.query).filter
        (fun g => !(TRACKING_PARAMS.contains (g.1.map lowerAscii)))).map Prod.fst =
      ((parse_qs p.query).map Prod.fst).filter
        (fun n => !(TRACKING_PARAMS.contains (n.map lowerAscii)))
    ∧ (∀ n, dictGet ((parse_qs p.query).filter
        (fun g => !(TRACKING_PARAMS.contains (g.1.map lowerAscii)))) n =
      if (!(TRACKING_PARAMS.contains (n.map lowerAscii))) = true
      then dictGet (parse_qs p.query) n else none)
    ∧ (∀ n, (dictGet (parse_qs p.query) n).getD [] =
        ((parse_qsl p.query).filter (fun pr => pr.1 == n)).map Prod.snd)
    ∧ parse_qsl (urlencode ((parse_qs p.query).filter
        (fun g => !(TRACKING_PARAMS.contains (g.1.map lowerAscii))))) =
      flatPairs ((parse_qs p.query).filter
        (fun g => !(TRACKING_PARAMS.contains (g.1.map lowerAscii)))) := by
  refine ⟨strip_eq_of_parse url p hp,
    map_fst_filter_key (fun n => !(TRACKING_PARAMS.contains (n.map lowerAscii)))
      (parse_qs p.query),
    fun n => dictGet_filter_key (fun n => !(TRACKING_PARAMS.contains (n.map lowerAscii)))
      (parse_qs p.query) n,
    fun n => parse_qs_values p.query n,
    parse_qsl_urlencode _ hplain⟩

/-- Witness for C7 at a URL with interleaved and tracking parameters. -/
theorem C7_canonicalization_witness :
    strip_tracking_params ("https://x.com/a?b=1&a=2&b=3&utm_source=z").data =
      .ok (urlunparse { (⟨("https").data, ("x.com").data, ("/a").data, [],
          ("b=1&a=2&b=3&utm_source=z").data, []⟩ : UrlParts) with
      query := urlencode ((parse_qs ("b=1&a=2&b=3&utm_source=z").data).filter
        (fun g => !(TRACKING_PARAMS.contains (g.1.map lowerAscii)))) })
    ∧ ((parse_qs ("b=1&a=2&b=3&utm_source=z").data).filter
        (fun g => !(TRACKING_PARAMS.contains (g.1.map lowerAscii)))).map Prod.fst =
      ((parse_qs ("b=1&a=2&b=3&utm_source=z").data).map Prod.fst).filter
        (fun n => !(TRACKING_PARAMS.contains (n.map lowerAscii)))
    ∧ (∀ n, dictGet ((parse_qs ("b=1&a=2&b=3&utm_source=z").data).filter
        (fun g => !(TRACKING_PARAMS.contains (g.1.map lowerAscii)))) n =
      if (!(TRACKING_PARAMS.contains (n.map lowerAscii))) = true
      then dictGet (parse_qs ("b=1&a=2&b=3&utm_source=z").data) n else none)
    ∧ (∀ n, (dictGet (parse_qs ("b=1&a=2&b=3&utm_source=z").data) n).getD [] =
        ((parse_qsl ("b=1&a=2&b=3&utm_source=z").data).filter
          (fun pr => pr.1 == n)).map Prod.snd)
    ∧ parse_qsl (urlencode ((parse_qs ("b=1&a=2&b=3&utm_source=z").data).filter
        (fun g => !(TRACKING_PARAMS.contains (g.1.map lowerAscii))))) =
      flatPairs ((parse_qs ("b=1&a=2&b=3&utm_source=z").data).filter
        (fun g => !(TRACKING_PARAMS.contains (g.1.map lowerAscii)))) :=
  C7_canonicalization ("https://x.com/a?b=1&a=2&b=3&utm_source=z").data
    (⟨("https").data, ("x.com").data, ("/a").data, [],
      ("b=1&a=2&b=3&utm_source=z").data, []⟩ : UrlParts)
    (by decide) (by decide)

/-! ## Claim C1: idempotence -/

theorem dictGet_of_mem_nodup {α : Type} :
    ∀ m : List (Str × α), (m.map Prod.fst).Nodup →
      ∀ k v, (k, v) ∈ m → dictGet m k = some v := by
  intro m
  induction m with
  | nil =>
    intro _ k v h
    exact absurd h (List.not_mem_nil _)
  | cons p rest ih =>
    intro hnd k v h
    rw [List.map_cons, List.nodup_cons] at hnd
    rw [List.mem_cons] at h
    cases h with
    | inl he =>
      have hk : p.1 = k := (congrArg Prod.fst he).symm
      have hv : p.2 = v := (congrArg Prod.snd he).symm
      rw [dictGet_cons, if_pos hk, hv]
    | inr hmem =>
      have hk : ¬p.1 = k := by
        intro he
        apply hnd.1
        rw [he]
        exact List.mem_map_of_mem Prod.fst hmem
      rw [dictGet_cons, if_neg hk]
      exact ih hnd.2 k v hmem

/-- Running the assignment loop over a reference list whose keys are
already the consecutive rendered numbers starting at the current
counter, with pairwise-distinct canonical URLs all unseen so far,
assigns every processed key to itself and appends the references
unchanged. -/
theorem assign_id_loop :
    ∀ (rs refs : List (Str × (Str × Str))) (st : AssignState),
      (∀ r ∈ rs, dictGet refs r.1 = some r.2) →
      (∀ j (hj : j < rs.length), (rs.get ⟨j, hj⟩).1 = natToStr (st.nextNum + j)) →
      ((rs.map (fun r => r.2.2)).Nodup) →
      (∀ r ∈ rs, dictGet st.urlToCanon r.2.2 = none) →
      (∀ k v, dictGet st.oldToNew k = some v → v = k) →
      (∀ j, st.nextNum ≤ j → dictGet st.newRefs (natToStr j) = none) →
      (∀ k v, dictGet (((rs.map Prod.fst).foldl (assignStep refs) st)).oldToNew k =
          some v → v = k)
        ∧ ((rs.map Prod.fst).foldl (assignStep refs) st).newRefs = st.newRefs ++ rs := by
  intro rs
  induction rs with
  | nil =>
    intro refs st hlook hkeys hnd hfreshU hid hfreshN
    exact ⟨hid, (List.append_nil st.newRefs).symm⟩
  | cons r rs2 ih =>
    intro refs st hlook hkeys hnd hfreshU hid hfreshN
    obtain ⟨hnd1, hnd2⟩ : r.2.2 ∉ rs2.map (fun r => r.2.2) ∧
        (rs2.map (fun r => r.2.2)).Nodup := by
      rw [List.map_cons, List.nodup_cons] at hnd
      exact hnd
    have hr1 : r.1 = natToStr st.nextNum := by
      have h0 := hkeys 0 (by simp)
      simpa using h0
    have hfr : dictGet st.newRefs (natToStr st.nextNum) = none :=
      hfreshN st.nextNum (Nat.le_refl _)
    have hstep : assignStep refs st r.1 =
        ⟨dictSet st.urlToCanon r.2.2 (natToStr st.nextNum),
         dictSet st.oldToNew r.1 (natToStr st.nextNum),
         st.nextNum + 1,
         dictSet st.newRefs (natToStr st.nextNum) r.2⟩ := by
      simp only [assignStep, hlook r (List.mem_cons_self _ _),
        hfreshU r (List.mem_cons_self _ _)]
    have hkeys2 : ∀ j (hj : j < rs2.length),
        (rs2.get ⟨j, hj⟩).1 = natToStr (st.nextNum + 1 + j) := by
      intro j hj
      have h2 := hkeys (j + 1) (by simp only [List.length_cons]; omega)
      rw [List.get_cons_succ] at h2
      rw [show st.nextNum + 1 + j = st.nextNum + (j + 1) from by omega]
      exact h2
    have hfreshU2 : ∀ r2 ∈ rs2,
        dictGet (dictSet st.urlToCanon r.2.2 (natToStr st.nextNum)) r2.2.2 = none := by
      intro r2 h2
      have hne : r2.2.2 ≠ r.2.2 := by
        intro he
        apply hnd1
        rw [← he]
        exact List.mem_map_of_mem (fun r => r.2.2) h2
      rw [dictGet_dictSet_ne _ _ _ _ hne]
      exact hfreshU r2 (List.mem_cons_of_mem _ h2)
    have hid2 : ∀ k v,
        dictGet (dictSet st.oldToNew r.1 (natToStr st.nextNum)) k = some v → v = k := by
      intro k v hkv
      by_cases hk : k = r.1
      · subst hk
        rw [dictGet_dictSet_self] at hkv
        injection hkv with hv2
        rw [← hv2, ← hr1]
      · rw [dictGet_dictSet_ne _ _ _ _ hk] at hkv
        exact hid k v hkv
    have hfreshN2 : ∀ j, st.nextNum + 1 ≤ j →
        dictGet (dictSet st.newRefs (natToStr st.nextNum) r.2) (natToStr j) = none := by
      intro j hj
      have hne2 : natToStr j ≠ natToStr st.nextNum := fun he => by
        have h3 := natToStr_inj he
        omega
      rw [dictGet_dictSet_ne _ _ _ _ hne2]
      exact hfreshN j (by omega)
    obtain ⟨hA, hB⟩ := ih refs
      ⟨dictSet st.urlToCanon r.2.2 (natToStr st.nextNum),
       dictSet st.oldToNew r.1 (natToStr st.nextNum),
       st.nextNum + 1,
       dictSet st.newRefs (natToStr st.nextNum) r.2⟩
      (fun r2 h2 => hlook r2 (List.mem_cons_of_mem _ h2))
      hkeys2 hnd2 hfreshU2 hid2 hfreshN2
    rw [List.map_cons, List.foldl_cons, hstep]
    refine ⟨hA, ?_⟩
    rw [hB]
    show dictSet st.newRefs (natToStr st.nextNum) r.2 ++ rs2 = st.newRefs ++ r :: rs2
    rw [dictSet_fresh _ _ _ hfr, List.append_assoc, List.singleton_append, ← hr1,
      Prod.mk.eta]

/-- C1 counterexample: the document below has three valid references
(numbered 10, 20, 30) and an orphan citation `[2]`.  After one
renumbering the orphan `[2]` collides with the freshly assigned number
2, so the second pass sees a different first-appearance order and
produces a different text: `renumber (renumber d) ≠ renumber d`. -/
theorem C1_counterexample :
    parse_references
      ("[2] [10] [20] [30]\n\n## References\n[10] A — https://a.com\n[20] B — https://b.com\n[30] C — https://c.com\n").data =
      .ok [(("10").data, (("A").data, ("https://a.com").data)),
           (("20").data, (("B").data, ("https://b.com").data)),
           (("30").data, (("C").data, ("https://c.com").data))]
    ∧ renumber_citations
      ("[2] [10] [20] [30]\n\n## References\n[10] A — https://a.com\n[20] B — https://b.com\n[30] C — https://c.com\n").data =
      .ok ("[2] [1] [2] [3]\n\n## References\n[1] A — https://a.com\n[2] B — https://b.com\n[3] C — https://c.com\n").data
    ∧ renumber_citations
      ("[2] [1] [2] [3]\n\n## References\n[1] A — https://a.com\n[2] B — https://b.com\n[3] C — https://c.com\n").data =
      .ok ("[1] [2] [1] [3]\n\n## References\n[1] B — https://b.com\n[2] A — https://a.com\n[3] C — https://c.com\n").data
    ∧ ¬("[1] [2] [1] [3]\n\n## References\n[1] B — https://b.com\n[2] A — https://a.com\n[3] C — https://c.com\n").data =
        ("[2] [1] [2] [3]\n\n## References\n[1] A — https://a.com\n[2] B — https://b.com\n[3] C — https://c.com\n").data := by
  refine ⟨by decide, by decide, by decide, by decide⟩

/-- C1 (amended): renumbering is idempotent on normalized documents
rather than on all documents with a valid reference: if the references
parse non-empty with keys exactly `1..K` in order, the canonical URLs
are pairwise distinct (duplicate-free), the body's matched citations
appear first in exactly the order `1..K` (no orphan collision can
reorder them), and the text is exactly its reassembled form, then
renumbering returns the text unchanged, so a second application agrees
with the first. -/
theorem C1_renumber_fixpoint (t : Str) (refs : List (Str × (Str × Str)))
    (h1 : parse_references t = .ok refs)
    (hne : refs.isEmpty = false)
    (hkeys : refs.map Prod.fst = (List.range' 1 refs.length).map natToStr)
    (hnd : (refs.map (fun r => r.2.2)).Nodup)
    (hseen : seenOrder refs (bodyOf t) = refs.map Prod.fst)
    (hform : t = rstrip (bodyOf t) ++
      ('\n' :: '\n' :: List.intercalate ['\n'] (refLinesOf refs)) ++ '\n' :: tailOf t) :
    renumber_citations t = .ok t := by
  have hkey_idx : ∀ j (hj : j < refs.length), (refs.get ⟨j, hj⟩).1 = natToStr (1 + j) := by
    intro j hj
    have hj1 : j < (refs.map Prod.fst).length := by simpa using hj
    have hg := List.get_of_eq hkeys ⟨j, hj1⟩
    rw [List.get_map, List.get_map, List.get_range'] at hg
    simpa using hg
  have hnodupKeys : (refs.map Prod.fst).Nodup := by
    rw [hkeys]
    exact List.Nodup.map (fun a b hab => natToStr_inj hab) (List.nodup_range' 1 refs.length)
  have hlook : ∀ r ∈ refs, dictGet refs r.1 = some r.2 := by
    intro r hr
    have hm : (r.1, r.2) ∈ refs := by
      rw [Prod.mk.eta]
      exact hr
    exact dictGet_of_mem_nodup refs hnodupKeys r.1 r.2 hm
  obtain ⟨hA, hB⟩ := assign_id_loop refs refs assignInit hlook
    (fun j hj => hkey_idx j hj)
    hnd
    (fun r hr => rfl)
    (fun k v hkv => Option.noConfusion hkv)
    (fun j hj => rfl)
  rw [renumber_eq_of_parse t refs h1 hne, hseen]
  have hsub : subCitations (assignAll refs (refs.map Prod.fst)).oldToNew (bodyOf t) =
      bodyOf t := subCitations_id _ hA (bodyOf t)
  rw [hsub]
  have hnr : (assignAll refs (refs.map Prod.fst)).newRefs = refs :=
    hB.trans (List.nil_append refs)
  rw [hnr, ← hform]

/-- Witness for C1 at a normalized two-reference document. -/
theorem C1_renumber_fixpoint_witness :
    renumber_citations
      ("See [1] and [2].\n\n## References\n[1] A — https://a.com\n[2] B — https://b.com\n").data =
      .ok ("See [1] and [2].\n\n## References\n[1] A — https://a.com\n[2] B — https://b.com\n").data :=
  C1_renumber_fixpoint
    ("See [1] and [2].\n\n## References\n[1] A — https://a.com\n[2] B — https://b.com\n").data
    [(("1").data, (("A").data, ("https://a.com").data)),
     (("2").data, (("B").data, ("https://b.com").data))]
    (by decide) (by decide) (by decide) (by decide) (by decide) (by decide)

end FormatReport
